import Mathlib

/-!
Verification of the routing-game repository's core algorithms against its
specification.  The C++ sources are shallowly embedded: doubles holding
geographic coordinates and distances become real numbers, the trigonometric
haversine formula is translated literally (with `atan2` defined by the usual
case split of the C library), container loops become folds over lists, and
hash maps become functions with an explicit finite domain.  External library
calls (RoutingKit's geo index and contraction hierarchy, `std::mt19937`) are
abstracted as parameters, with any property the call sites rely on taken as an
explicit hypothesis.
-/

namespace RoutingGame

open Real

/-! ## Real geometry: `atan2` and the haversine formula

`haversine_m` appears twice in the sources with the same formula and
`R = 6371000`: `DiskSpatialIndex::haversine_m` and
`RoutingEngine::haversineDistance`.  `atan2` follows the C library definition.
-/

/-- C library `atan2`, defined by the standard case split on the signs of the
arguments.  Only the quadrant with `y ≥ 0`, `x ≥ 0` is exercised by the
haversine formula, since both arguments are square roots. -/
noncomputable def atan2 (y x : ℝ) : ℝ :=
  if 0 < x then Real.arctan (y / x)
  else if x < 0 then
    (if 0 ≤ y then Real.arctan (y / x) + π else Real.arctan (y / x) - π)
  else
    (if 0 < y then π / 2 else if y < 0 then -(π / 2) else 0)

/-- Haversine distance in meters between two WGS84 points given in degrees,
translated from `haversine_m` in `DiskSpatialIndex.h` (and the identical
`RoutingEngine::haversineDistance`): degrees are converted to radians with
`x * π / 180`, `h = sin²(Δlat/2) + cos lat1 · cos lat2 · sin²(Δlon/2)`,
`c = 2·atan2(√h, √(1−h))`, result `6371000 · c`. -/
noncomputable def haversine_m (lat1 lon1 lat2 lon2 : ℝ) : ℝ :=
  let lat1r := lat1 * π / 180
  let lon1r := lon1 * π / 180
  let lat2r := lat2 * π / 180
  let lon2r := lon2 * π / 180
  let dlat := lat2r - lat1r
  let dlon := lon2r - lon1r
  let sdlat := Real.sin (dlat / 2)
  let sdlon := Real.sin (dlon / 2)
  let h := sdlat * sdlat + Real.cos lat1r * Real.cos lat2r * (sdlon * sdlon)
  let c := 2 * atan2 (Real.sqrt h) (Real.sqrt (1 - h))
  6371000 * c

theorem arctan_nonneg_of_nonneg {x : ℝ} (hx : 0 ≤ x) : 0 ≤ Real.arctan x := by
  have := Real.arctan_strictMono.monotone hx
  rwa [Real.arctan_zero] at this

theorem atan2_nonneg {y x : ℝ} (hy : 0 ≤ y) (hx : 0 ≤ x) : 0 ≤ atan2 y x := by
  unfold atan2
  rcases lt_or_eq_of_le hx with hx' | hx'
  · rw [if_pos hx']
    exact arctan_nonneg_of_nonneg (div_nonneg hy hx'.le)
  · rw [if_neg (by simp [← hx']), if_neg (by simp [← hx'])]
    rcases lt_or_eq_of_le hy with hy' | hy'
    · rw [if_pos hy']; positivity
    · rw [if_neg (by simp [← hy']), if_neg (by simp [← hy'])]

theorem atan2_le_pi_div_two {y x : ℝ} (hx : 0 ≤ x) : atan2 y x ≤ π / 2 := by
  unfold atan2
  rcases lt_or_eq_of_le hx with hx' | hx'
  · rw [if_pos hx']
    exact (Real.arctan_lt_pi_div_two _).le
  · rw [if_neg (by simp [← hx']), if_neg (by simp [← hx'])]
    split
    · exact le_refl _
    · split
      · nlinarith [Real.pi_pos]
      · positivity

theorem atan2_zero_of_pos {x : ℝ} (hx : 0 < x) : atan2 0 x = 0 := by
  unfold atan2
  rw [if_pos hx, zero_div, Real.arctan_zero]

/-- On arguments `(sin t, cos t)` with `t` in the open first quadrant,
`atan2` recovers `t`. -/
theorem atan2_sin_cos {t : ℝ} (h0 : 0 ≤ t) (h1 : t < π / 2) :
    atan2 (Real.sin t) (Real.cos t) = t := by
  have hc : 0 < Real.cos t := by
    apply Real.cos_pos_of_mem_Ioo
    constructor
    · linarith [Real.pi_pos]
    · exact h1
  unfold atan2
  rw [if_pos hc, ← Real.tan_eq_sin_div_cos]
  exact Real.arctan_tan (by linarith [Real.pi_pos]) h1

/-- The intermediate quantity `h` of the haversine formula, named so the
`let`-bound body of `haversine_m` can be exposed by `rfl`. -/
noncomputable def havH (lat1 lon1 lat2 lon2 : ℝ) : ℝ :=
  Real.sin ((lat2 * π / 180 - lat1 * π / 180) / 2) *
    Real.sin ((lat2 * π / 180 - lat1 * π / 180) / 2) +
  Real.cos (lat1 * π / 180) * Real.cos (lat2 * π / 180) *
    (Real.sin ((lon2 * π / 180 - lon1 * π / 180) / 2) *
     Real.sin ((lon2 * π / 180 - lon1 * π / 180) / 2))

theorem haversine_m_eq (lat1 lon1 lat2 lon2 : ℝ) :
    haversine_m lat1 lon1 lat2 lon2 =
      6371000 * (2 * atan2 (Real.sqrt (havH lat1 lon1 lat2 lon2))
        (Real.sqrt (1 - havH lat1 lon1 lat2 lon2))) := rfl

theorem haversine_m_nonneg (lat1 lon1 lat2 lon2 : ℝ) :
    0 ≤ haversine_m lat1 lon1 lat2 lon2 := by
  rw [haversine_m_eq]
  have h := atan2_nonneg (Real.sqrt_nonneg (havH lat1 lon1 lat2 lon2))
    (Real.sqrt_nonneg (1 - havH lat1 lon1 lat2 lon2))
  nlinarith [h]

/-- The haversine value never exceeds `6371000 · π`: the `atan2` argument pair
is a pair of square roots, hence lands in the closed first quadrant. -/
theorem haversine_m_le (lat1 lon1 lat2 lon2 : ℝ) :
    haversine_m lat1 lon1 lat2 lon2 ≤ 6371000 * π := by
  rw [haversine_m_eq]
  have h := @atan2_le_pi_div_two
    (Real.sqrt (havH lat1 lon1 lat2 lon2)) _
    (Real.sqrt_nonneg (1 - havH lat1 lon1 lat2 lon2))
  nlinarith [h]

/-- Haversine of a point with itself is zero. -/
theorem haversine_m_self (lat lon : ℝ) : haversine_m lat lon lat lon = 0 := by
  rw [haversine_m_eq]
  have hH : havH lat lon lat lon = 0 := by
    unfold havH
    simp [sub_self]
  rw [hH]
  simp only [Real.sqrt_zero, sub_zero, Real.sqrt_one]
  rw [atan2_zero_of_pos one_pos]
  ring

/-- Swapping the two points leaves the haversine value unchanged. -/
theorem haversine_m_comm (lat1 lon1 lat2 lon2 : ℝ) :
    haversine_m lat1 lon1 lat2 lon2 = haversine_m lat2 lon2 lat1 lon1 := by
  rw [haversine_m_eq, haversine_m_eq]
  have hH : havH lat1 lon1 lat2 lon2 = havH lat2 lon2 lat1 lon1 := by
    unfold havH
    have e1 : (lat1 * π / 180 - lat2 * π / 180) / 2
        = -((lat2 * π / 180 - lat1 * π / 180) / 2) := by ring
    have e2 : (lon1 * π / 180 - lon2 * π / 180) / 2
        = -((lon2 * π / 180 - lon1 * π / 180) / 2) := by ring
    rw [e1, e2, Real.sin_neg, Real.sin_neg]
    ring
  rw [hH]

/-- On the equator the haversine formula is exact: for `0 ≤ d < 180`,
the distance between longitudes `l` and `l + d` is `6371000 · (d·π/180)`. -/
theorem haversine_m_equator {l d : ℝ} (h0 : 0 ≤ d) (h1 : d < 180) :
    haversine_m 0 l 0 (l + d) = 6371000 * (d * π / 180) := by
  rw [haversine_m_eq]
  have ht0 : 0 ≤ d * π / 360 := by positivity
  have ht1 : d * π / 360 < π / 2 := by
    have : d * π < 180 * π := by
      apply mul_lt_mul_of_pos_right h1 Real.pi_pos
    linarith
  have hsin : 0 ≤ Real.sin (d * π / 360) := by
    apply Real.sin_nonneg_of_nonneg_of_le_pi ht0
    linarith [Real.pi_pos]
  have hcos : 0 ≤ Real.cos (d * π / 360) := by
    apply le_of_lt
    apply Real.cos_pos_of_mem_Ioo
    constructor
    · linarith [Real.pi_pos]
    · exact ht1
  have hH : havH 0 l 0 (l + d)
      = Real.sin (d * π / 360) * Real.sin (d * π / 360) := by
    unfold havH
    have hx : ((l + d) * π / 180 - l * π / 180) / 2 = d * π / 360 := by ring
    rw [hx]
    simp [sub_self]
  rw [hH]
  have hid : (1 : ℝ) - Real.sin (d * π / 360) * Real.sin (d * π / 360)
      = Real.cos (d * π / 360) * Real.cos (d * π / 360) := by
    have := Real.sin_sq_add_cos_sq (d * π / 360)
    nlinarith [this]
  rw [Real.sqrt_mul_self hsin, hid, Real.sqrt_mul_self hcos,
    atan2_sin_cos ht0 ht1]
  ring

/-! ## Disk grid spatial index (`DiskSpatialIndex.h`)

The index state is the list of inserted `(node_id, lat, lon)` records in
insertion order; `insert` appends (the per-cell files partition this list by
grid cell, and appending to a cell file preserves insertion order within the
cell, so reading a cell file is the same as filtering the list by cell).
`find_nearest` is the literal ring-expansion loop: the `while` loop on
`radius_cells` becomes structural recursion on the remaining number of radii
(`max_radius_cells = 1000`), and the sentinel pair
`(0, std::numeric_limits<double>::max())` becomes `(0, none)` — the initial
`min_distance = DBL_MAX` compares greater than every haversine value (which is
at most `6371000·π`), so `Option ℝ` with `none` for "unset" is faithful. -/

/-- One record of a grid-cell file: `DiskSpatialIndex::NodeEntry`. -/
structure GridEntry where
  node_id : ℤ
  lat : ℝ
  lon : ℝ

/-- `DiskSpatialIndex::get_grid_cell`: integer cell coordinates
`(⌊lat/0.01⌋, ⌊lon/0.01⌋)` (the `int32_t` cast never overflows for
geographic coordinates, so `ℤ` is faithful). -/
noncomputable def gridCellOf (lat lon : ℝ) : ℤ × ℤ :=
  (⌊lat / 0.01⌋, ⌊lon / 0.01⌋)

/-- `DiskSpatialIndex::insert`: append the record. -/
def dsiInsert (entries : List GridEntry) (e : GridEntry) : List GridEntry :=
  entries ++ [e]

/-- `DiskSpatialIndex::read_cell_nodes`: the records of one cell file, i.e.
the inserted records whose location falls in that cell, in insertion order. -/
noncomputable def cellEntries (entries : List GridEntry) (cell : ℤ × ℤ) :
    List GridEntry :=
  entries.filter (fun e => decide (gridCellOf e.lat e.lon = cell))

/-- Running state of the `find_nearest` scan: `nearest_node` and
`min_distance` (with `none` standing for the initial `DBL_MAX`). -/
structure NNAcc where
  nearest : ℤ
  minDist : Option ℝ

/-- Body of the innermost loop of `find_nearest`: update the running minimum
with one record (`dist < min_distance && dist <= max_radius_m`; against the
initial `DBL_MAX` the first comparison always holds). -/
noncomputable def scanEntry (qlat qlon maxR : ℝ) (acc : NNAcc) (e : GridEntry) :
    NNAcc :=
  let dist := haversine_m qlat qlon e.lat e.lon
  match acc.minDist with
  | none => if dist ≤ maxR then ⟨e.node_id, some dist⟩ else acc
  | some m => if dist < m ∧ dist ≤ maxR then ⟨e.node_id, some dist⟩ else acc

/-- Scan all records of one grid cell. -/
noncomputable def scanCell (qlat qlon maxR : ℝ) (entries : List GridEntry)
    (acc : NNAcc) (cell : ℤ × ℤ) : NNAcc :=
  (cellEntries entries cell).foldl (scanEntry qlat qlon maxR) acc

/-- The list `[lo, lo+1, …, hi]` of integers. -/
def intRange (lo hi : ℤ) : List ℤ :=
  (List.range (hi - lo + 1).toNat).map (fun i : ℕ => lo + (i : ℤ))

/-- The cell offsets examined at `radius_cells = r`: the double loop over
`dlat, dlon ∈ [-r, r]`, skipping (for `r > 1`) the inner square
`|dlat| < r-1 ∧ |dlon| < r-1` already scanned at the previous radius. -/
def ringOffsets (r : ℤ) : List (ℤ × ℤ) :=
  (intRange (-r) r).flatMap (fun di =>
    (intRange (-r) r).filterMap (fun dj =>
      if 1 < r ∧ |di| < r - 1 ∧ |dj| < r - 1 then none else some (di, dj)))

/-- Scan every cell of the radius-`r` ring around the query cell `qc`.
The C++ loop skips cells absent from `cells_with_nodes_`; such cells have an
empty record list, so scanning them unconditionally is equivalent. -/
noncomputable def scanRing (qlat qlon maxR : ℝ) (entries : List GridEntry)
    (qc : ℤ × ℤ) (r : ℤ) (acc : NNAcc) : NNAcc :=
  (ringOffsets r).foldl
    (fun a off => scanCell qlat qlon maxR entries a (qc.1 + off.1, qc.2 + off.2))
    acc

/-- The `while (radius_cells <= max_radius_cells)` loop of `find_nearest`,
with the number of remaining radii as the recursion fuel. -/
noncomputable def findNearestLoop (qlat qlon maxR : ℝ)
    (entries : List GridEntry) (qc : ℤ × ℤ) :
    ℕ → ℤ → NNAcc → ℤ × Option ℝ
  | 0, _, _ => (0, none)
  | fuel + 1, r, acc =>
    let acc2 := scanRing qlat qlon maxR entries qc r acc
    if acc2.nearest ≠ 0 then (acc2.nearest, acc2.minDist)
    else findNearestLoop qlat qlon maxR entries qc fuel (r + 1) acc2

/-- `DiskSpatialIndex::find_nearest` (default `max_radius_m = 10000`):
ring expansion from `radius_cells = 1` up to `max_radius_cells = 1000`,
returning `(0, none)` — the `(0, DBL_MAX)` sentinel — on failure. -/
noncomputable def findNearest (entries : List GridEntry) (qlat qlon maxR : ℝ) :
    ℤ × Option ℝ :=
  findNearestLoop qlat qlon maxR entries (gridCellOf qlat qlon) 1000 1 ⟨0, none⟩

/-- Chebyshev distance between two grid cells. -/
def chebyCells (c1 c2 : ℤ × ℤ) : ℤ :=
  max |c1.1 - c2.1| |c1.2 - c2.2|

/-- Chebyshev cell distance of a record from the query cell. -/
noncomputable def chebyOf (qc : ℤ × ℤ) (e : GridEntry) : ℤ :=
  chebyCells (gridCellOf e.lat e.lon) qc

theorem mem_intRange {lo hi a : ℤ} : a ∈ intRange lo hi ↔ lo ≤ a ∧ a ≤ hi := by
  unfold intRange
  simp only [List.mem_map, List.mem_range]
  constructor
  · rintro ⟨i, hi', rfl⟩
    omega
  · rintro ⟨h1, h2⟩
    exact ⟨(a - lo).toNat, by omega, by omega⟩

theorem mem_ringOffsets {r di dj : ℤ} :
    (di, dj) ∈ ringOffsets r ↔
      |di| ≤ r ∧ |dj| ≤ r ∧ ¬(1 < r ∧ |di| < r - 1 ∧ |dj| < r - 1) := by
  unfold ringOffsets
  simp only [List.mem_flatMap, List.mem_filterMap, mem_intRange]
  constructor
  · rintro ⟨x, ⟨hx1, hx2⟩, y, ⟨hy1, hy2⟩, hy⟩
    by_cases hc : 1 < r ∧ |x| < r - 1 ∧ |y| < r - 1
    · rw [if_pos hc] at hy; exact absurd hy (by simp)
    · rw [if_neg hc] at hy
      obtain ⟨rfl, rfl⟩ : x = di ∧ y = dj := by
        constructor <;> · cases hy; rfl
      exact ⟨abs_le.mpr ⟨hx1, hx2⟩, abs_le.mpr ⟨hy1, hy2⟩, hc⟩
  · rintro ⟨h1, h2, h3⟩
    rw [abs_le] at h1 h2
    refine ⟨di, ⟨h1.1, h1.2⟩, dj, ⟨h2.1, h2.2⟩, ?_⟩
    rw [if_neg h3]

/-- A cell at Chebyshev distance `d` from the query cell is scanned at
radius `r` whenever `d = r`, or `r = 1` and `d ≤ 1`. -/
theorem cell_scanned {qc c : ℤ × ℤ} {r : ℤ}
    (h : (1 ≤ r ∧ chebyCells c qc = r) ∨ (r = 1 ∧ chebyCells c qc ≤ 1)) :
    ∃ off ∈ ringOffsets r, (qc.1 + off.1, qc.2 + off.2) = c := by
  refine ⟨(c.1 - qc.1, c.2 - qc.2), ?_, by simp⟩
  rw [mem_ringOffsets]
  unfold chebyCells at h
  rw [max_le_iff] at h
  rcases h with ⟨hr, hd⟩ | ⟨hr, hd⟩
  · have h1 : |c.1 - qc.1| ≤ r := le_max_left _ _ |>.trans_eq hd
    have h2 : |c.2 - qc.2| ≤ r := le_max_right _ _ |>.trans_eq hd
    refine ⟨h1, h2, ?_⟩
    rintro ⟨hgt, ha, hb⟩
    have : max |c.1 - qc.1| |c.2 - qc.2| < r - 1 := max_lt ha hb
    omega
  · have h1 : |c.1 - qc.1| ≤ r := by omega
    have h2 : |c.2 - qc.2| ≤ r := by omega
    exact ⟨h1, h2, by omega⟩

/-- Every offset scanned at radius `r` stays within Chebyshev distance `r`
of the query cell. -/
theorem ringOffsets_le {r di dj : ℤ} (h : (di, dj) ∈ ringOffsets r) :
    |di| ≤ r ∧ |dj| ≤ r := by
  have := mem_ringOffsets.mp h
  exact ⟨this.1, this.2.1⟩

/-- Soundness predicate for the scan state: it is either still the initial
`(0, DBL_MAX)` or records an inserted entry within `max_radius_m`. -/
def AccSound (qlat qlon maxR : ℝ) (entries : List GridEntry) (acc : NNAcc) :
    Prop :=
  acc = ⟨0, none⟩ ∨
    ∃ e ∈ entries, acc = ⟨e.node_id, some (haversine_m qlat qlon e.lat e.lon)⟩ ∧
      haversine_m qlat qlon e.lat e.lon ≤ maxR

theorem scanEntry_sound {qlat qlon maxR : ℝ} {entries : List GridEntry}
    {acc : NNAcc} {e : GridEntry} (hs : AccSound qlat qlon maxR entries acc)
    (he : e ∈ entries) :
    AccSound qlat qlon maxR entries (scanEntry qlat qlon maxR acc e) := by
  unfold scanEntry
  rcases hacc : acc.minDist with _ | m
  · simp only
    split
    · exact Or.inr ⟨e, he, rfl, by assumption⟩
    · exact hs
  · simp only
    split
    · rename_i hcond
      exact Or.inr ⟨e, he, rfl, hcond.2⟩
    · exact hs

theorem scanEntry_ne_zero {qlat qlon maxR : ℝ} {entries : List GridEntry}
    {acc : NNAcc} {e : GridEntry}
    (hids : ∀ e' ∈ entries, e'.node_id ≠ 0) (he : e ∈ entries)
    (hne : acc.nearest ≠ 0) :
    (scanEntry qlat qlon maxR acc e).nearest ≠ 0 := by
  unfold scanEntry
  rcases acc.minDist with _ | m
  · simp only
    split
    · exact hids e he
    · exact hne
  · simp only
    split
    · exact hids e he
    · exact hne

theorem scanEntry_qual {qlat qlon maxR : ℝ} {entries : List GridEntry}
    {acc : NNAcc} {e : GridEntry}
    (hids : ∀ e' ∈ entries, e'.node_id ≠ 0)
    (hs : AccSound qlat qlon maxR entries acc) (he : e ∈ entries)
    (hq : haversine_m qlat qlon e.lat e.lon ≤ maxR) :
    (scanEntry qlat qlon maxR acc e).nearest ≠ 0 := by
  rcases hs with rfl | ⟨e', he', heq, _⟩
  · unfold scanEntry
    simp only [if_pos hq]
    exact hids e he
  · apply scanEntry_ne_zero hids he
    rw [heq]
    exact hids e' he'

theorem scanEntry_skip {qlat qlon maxR : ℝ} {e : GridEntry}
    (hq : ¬ haversine_m qlat qlon e.lat e.lon ≤ maxR) :
    scanEntry qlat qlon maxR ⟨0, none⟩ e = ⟨0, none⟩ := by
  unfold scanEntry
  simp only [if_neg hq]

theorem foldl_scanEntry_sound {qlat qlon maxR : ℝ} {entries : List GridEntry}
    {l : List GridEntry} {acc : NNAcc}
    (hl : ∀ e ∈ l, e ∈ entries) (hs : AccSound qlat qlon maxR entries acc) :
    AccSound qlat qlon maxR entries (l.foldl (scanEntry qlat qlon maxR) acc) := by
  induction l generalizing acc with
  | nil => exact hs
  | cons e t ih =>
    exact ih (fun x hx => hl x (List.mem_cons_of_mem _ hx))
      (scanEntry_sound hs (hl e (List.mem_cons_self _ _)))

theorem foldl_scanEntry_ne_zero {qlat qlon maxR : ℝ}
    {entries : List GridEntry} {l : List GridEntry} {acc : NNAcc}
    (hids : ∀ e' ∈ entries, e'.node_id ≠ 0)
    (hl : ∀ e ∈ l, e ∈ entries) (hne : acc.nearest ≠ 0) :
    (l.foldl (scanEntry qlat qlon maxR) acc).nearest ≠ 0 := by
  induction l generalizing acc with
  | nil => exact hne
  | cons e t ih =>
    exact ih (fun x hx => hl x (List.mem_cons_of_mem _ hx))
      (scanEntry_ne_zero hids (hl e (List.mem_cons_self _ _)) hne)

theorem foldl_scanEntry_qual {qlat qlon maxR : ℝ} {entries : List GridEntry}
    {l : List GridEntry} {acc : NNAcc} {e0 : GridEntry}
    (hids : ∀ e' ∈ entries, e'.node_id ≠ 0)
    (hl : ∀ e ∈ l, e ∈ entries) (hs : AccSound qlat qlon maxR entries acc)
    (he0 : e0 ∈ l) (hq : haversine_m qlat qlon e0.lat e0.lon ≤ maxR) :
    (l.foldl (scanEntry qlat qlon maxR) acc).nearest ≠ 0 := by
  induction l generalizing acc with
  | nil => cases he0
  | cons e t ih =>
    rw [List.foldl_cons]
    rcases List.mem_cons.mp he0 with heq | he0'
    · subst heq
      exact foldl_scanEntry_ne_zero hids
        (fun x hx => hl x (List.mem_cons_of_mem _ hx))
        (scanEntry_qual hids hs (hl e0 (List.mem_cons_self _ _)) hq)
    · exact ih (fun x hx => hl x (List.mem_cons_of_mem _ hx))
        (scanEntry_sound hs (hl e (List.mem_cons_self _ _))) he0'

theorem foldl_scanEntry_skip {qlat qlon maxR : ℝ} {l : List GridEntry}
    (hq : ∀ e ∈ l, ¬ haversine_m qlat qlon e.lat e.lon ≤ maxR) :
    l.foldl (scanEntry qlat qlon maxR) ⟨0, none⟩ = ⟨0, none⟩ := by
  induction l with
  | nil => rfl
  | cons e t ih =>
    rw [List.foldl_cons, scanEntry_skip (hq e (List.mem_cons_self _ _))]
    exact ih (fun x hx => hq x (List.mem_cons_of_mem _ hx))

theorem cellEntries_subset {entries : List GridEntry} {cell : ℤ × ℤ}
    {e : GridEntry} (h : e ∈ cellEntries entries cell) : e ∈ entries :=
  List.mem_of_mem_filter h

theorem mem_cellEntries_self {entries : List GridEntry} {e : GridEntry}
    (h : e ∈ entries) : e ∈ cellEntries entries (gridCellOf e.lat e.lon) := by
  unfold cellEntries
  rw [List.mem_filter]
  exact ⟨h, by simp⟩

theorem cellEntries_cheby {entries : List GridEntry} {qc : ℤ × ℤ} {off : ℤ × ℤ}
    {e : GridEntry} (h : e ∈ cellEntries entries (qc.1 + off.1, qc.2 + off.2)) :
    chebyOf qc e = chebyCells (qc.1 + off.1, qc.2 + off.2) qc := by
  unfold cellEntries at h
  rw [List.mem_filter] at h
  have := of_decide_eq_true h.2
  unfold chebyOf
  rw [this]

theorem scanCell_sound {qlat qlon maxR : ℝ} {entries : List GridEntry}
    {acc : NNAcc} {cell : ℤ × ℤ}
    (hs : AccSound qlat qlon maxR entries acc) :
    AccSound qlat qlon maxR entries (scanCell qlat qlon maxR entries acc cell) :=
  foldl_scanEntry_sound (fun _ hx => cellEntries_subset hx) hs

theorem scanCell_ne_zero {qlat qlon maxR : ℝ} {entries : List GridEntry}
    {acc : NNAcc} {cell : ℤ × ℤ}
    (hids : ∀ e' ∈ entries, e'.node_id ≠ 0) (hne : acc.nearest ≠ 0) :
    (scanCell qlat qlon maxR entries acc cell).nearest ≠ 0 :=
  foldl_scanEntry_ne_zero hids (fun _ hx => cellEntries_subset hx) hne

theorem scanCell_qual {qlat qlon maxR : ℝ} {entries : List GridEntry}
    {acc : NNAcc} {cell : ℤ × ℤ} {e0 : GridEntry}
    (hids : ∀ e' ∈ entries, e'.node_id ≠ 0)
    (hs : AccSound qlat qlon maxR entries acc)
    (he0 : e0 ∈ cellEntries entries cell)
    (hq : haversine_m qlat qlon e0.lat e0.lon ≤ maxR) :
    (scanCell qlat qlon maxR entries acc cell).nearest ≠ 0 :=
  foldl_scanEntry_qual hids (fun _ hx => cellEntries_subset hx) hs he0 hq

theorem scanCell_skip {qlat qlon maxR : ℝ} {entries : List GridEntry}
    {cell : ℤ × ℤ}
    (hq : ∀ e ∈ cellEntries entries cell,
      ¬ haversine_m qlat qlon e.lat e.lon ≤ maxR) :
    scanCell qlat qlon maxR entries ⟨0, none⟩ cell = ⟨0, none⟩ :=
  foldl_scanEntry_skip hq

theorem foldl_scanCell_sound {qlat qlon maxR : ℝ} {entries : List GridEntry}
    {qc : ℤ × ℤ} {offs : List (ℤ × ℤ)} {acc : NNAcc}
    (hs : AccSound qlat qlon maxR entries acc) :
    AccSound qlat qlon maxR entries
      (offs.foldl
        (fun a off => scanCell qlat qlon maxR entries a (qc.1 + off.1, qc.2 + off.2))
        acc) := by
  induction offs generalizing acc with
  | nil => exact hs
  | cons o t ih => exact ih (scanCell_sound hs)

theorem foldl_scanCell_ne_zero {qlat qlon maxR : ℝ} {entries : List GridEntry}
    {qc : ℤ × ℤ} {offs : List (ℤ × ℤ)} {acc : NNAcc}
    (hids : ∀ e' ∈ entries, e'.node_id ≠ 0) (hne : acc.nearest ≠ 0) :
    (offs.foldl
      (fun a off => scanCell qlat qlon maxR entries a (qc.1 + off.1, qc.2 + off.2))
      acc).nearest ≠ 0 := by
  induction offs generalizing acc with
  | nil => exact hne
  | cons o t ih => exact ih (scanCell_ne_zero hids hne)

theorem scanRing_sound {qlat qlon maxR : ℝ} {entries : List GridEntry}
    {qc : ℤ × ℤ} {r : ℤ} {acc : NNAcc}
    (hs : AccSound qlat qlon maxR entries acc) :
    AccSound qlat qlon maxR entries (scanRing qlat qlon maxR entries qc r acc) :=
  foldl_scanCell_sound hs

theorem scanRing_ne_zero {qlat qlon maxR : ℝ} {entries : List GridEntry}
    {qc : ℤ × ℤ} {r : ℤ} {acc : NNAcc}
    (hids : ∀ e' ∈ entries, e'.node_id ≠ 0) (hne : acc.nearest ≠ 0) :
    (scanRing qlat qlon maxR entries qc r acc).nearest ≠ 0 :=
  foldl_scanCell_ne_zero hids hne

theorem scanRing_qual {qlat qlon maxR : ℝ} {entries : List GridEntry}
    {qc : ℤ × ℤ} {r : ℤ} {acc : NNAcc} {e0 : GridEntry}
    (hids : ∀ e' ∈ entries, e'.node_id ≠ 0)
    (hs : AccSound qlat qlon maxR entries acc)
    (he0 : e0 ∈ entries)
    (hq : haversine_m qlat qlon e0.lat e0.lon ≤ maxR)
    (hcell : ∃ off ∈ ringOffsets r,
      (qc.1 + off.1, qc.2 + off.2) = gridCellOf e0.lat e0.lon) :
    (scanRing qlat qlon maxR entries qc r acc).nearest ≠ 0 := by
  unfold scanRing
  obtain ⟨off0, hoff0, hc0⟩ := hcell
  generalize hl : ringOffsets r = offs at hoff0
  clear hl
  induction offs generalizing acc with
  | nil => cases hoff0
  | cons o t ih =>
    rw [List.foldl_cons]
    rcases List.mem_cons.mp hoff0 with heq | ho'
    · subst heq
      apply foldl_scanCell_ne_zero hids
      apply scanCell_qual hids hs _ hq
      rw [hc0]
      exact mem_cellEntries_self he0
    · exact ih (scanCell_sound hs) ho'

theorem scanRing_skip {qlat qlon maxR : ℝ} {entries : List GridEntry}
    {qc : ℤ × ℤ} {r : ℤ} (hr : r ≤ 1000)
    (hno : ∀ e ∈ entries, chebyOf qc e ≤ 1000 →
      ¬ haversine_m qlat qlon e.lat e.lon ≤ maxR) :
    scanRing qlat qlon maxR entries qc r ⟨0, none⟩ = ⟨0, none⟩ := by
  unfold scanRing
  have hsub : ∀ o ∈ ringOffsets r, o ∈ ringOffsets r := fun o h => h
  revert hsub
  generalize hl : ringOffsets r = offs
  intro hsub
  have hsub' : ∀ o ∈ offs, o ∈ ringOffsets r := by rw [hl]; exact fun o h => h
  clear hsub hl
  induction offs with
  | nil => rfl
  | cons o t ih =>
    rw [List.foldl_cons]
    have hcell : scanCell qlat qlon maxR entries ⟨0, none⟩ (qc.1 + o.1, qc.2 + o.2)
        = ⟨0, none⟩ := by
      apply scanCell_skip
      intro e he
      apply hno e (cellEntries_subset he)
      rw [cellEntries_cheby he]
      unfold chebyCells
      have := @ringOffsets_le r o.1 o.2
        (by exact hsub' o (List.mem_cons_self _ _))
      simp only [add_sub_cancel_left]
      omega
    rw [hcell]
    exact ih (fun x hx => hsub' x (List.mem_cons_of_mem _ hx))

theorem findNearestLoop_succ {qlat qlon maxR : ℝ} {entries : List GridEntry}
    {qc : ℤ × ℤ} {fuel : ℕ} {r : ℤ} {acc : NNAcc} :
    findNearestLoop qlat qlon maxR entries qc (fuel + 1) r acc =
      (if (scanRing qlat qlon maxR entries qc r acc).nearest ≠ 0 then
        ((scanRing qlat qlon maxR entries qc r acc).nearest,
         (scanRing qlat qlon maxR entries qc r acc).minDist)
      else findNearestLoop qlat qlon maxR entries qc fuel (r + 1)
        (scanRing qlat qlon maxR entries qc r acc)) := rfl

theorem findNearestLoop_skip {qlat qlon maxR : ℝ} {entries : List GridEntry}
    {qc : ℤ × ℤ}
    (hno : ∀ e ∈ entries, chebyOf qc e ≤ 1000 →
      ¬ haversine_m qlat qlon e.lat e.lon ≤ maxR) :
    ∀ (fuel : ℕ) (r : ℤ), 1 ≤ r → r + fuel ≤ 1001 →
      findNearestLoop qlat qlon maxR entries qc fuel r ⟨0, none⟩ = (0, none) := by
  intro fuel
  induction fuel with
  | zero => intro r _ _; rfl
  | succ n ih =>
    intro r hr1 hr2
    rw [findNearestLoop_succ]
    have hri : scanRing qlat qlon maxR entries qc r ⟨0, none⟩ = ⟨0, none⟩ :=
      scanRing_skip (by omega) hno
    rw [hri]
    rw [if_neg (by simp)]
    exact ih (r + 1) (by omega) (by omega)

theorem findNearestLoop_sound {qlat qlon maxR : ℝ} {entries : List GridEntry}
    {qc : ℤ × ℤ} :
    ∀ (fuel : ℕ) (r : ℤ) (acc : NNAcc), AccSound qlat qlon maxR entries acc →
      findNearestLoop qlat qlon maxR entries qc fuel r acc = (0, none) ∨
      ∃ e ∈ entries,
        findNearestLoop qlat qlon maxR entries qc fuel r acc =
          (e.node_id, some (haversine_m qlat qlon e.lat e.lon)) ∧
        haversine_m qlat qlon e.lat e.lon ≤ maxR := by
  intro fuel
  induction fuel with
  | zero => intro r acc _; exact Or.inl rfl
  | succ n ih =>
    intro r acc hs
    rw [findNearestLoop_succ]
    have hs2 := @scanRing_sound qlat qlon maxR entries qc r acc hs
    by_cases hz : (scanRing qlat qlon maxR entries qc r acc).nearest ≠ 0
    · rw [if_pos hz]
      rcases hs2 with heq | ⟨e, he, heq, hle⟩
      · rw [heq] at hz; exact absurd rfl hz
      · exact Or.inr ⟨e, he, by rw [heq], hle⟩
    · rw [if_neg hz]
      exact ih (r + 1) _ hs2

theorem findNearestLoop_finds {qlat qlon maxR : ℝ} {entries : List GridEntry}
    {qc : ℤ × ℤ} (hids : ∀ e' ∈ entries, e'.node_id ≠ 0) :
    ∀ (fuel : ℕ) (r : ℤ) (acc : NNAcc), AccSound qlat qlon maxR entries acc →
      r = 1001 - fuel → 2 ≤ r →
      (∃ e ∈ entries, haversine_m qlat qlon e.lat e.lon ≤ maxR ∧
        r ≤ chebyOf qc e ∧ chebyOf qc e ≤ 1000) →
      findNearestLoop qlat qlon maxR entries qc fuel r acc ≠ (0, none) := by
  intro fuel
  induction fuel with
  | zero =>
    intro r acc _ hr _ hex
    obtain ⟨e, _, _, hge, hle⟩ := hex
    omega
  | succ n ih =>
    intro r acc hs hr hr2 hex
    rw [findNearestLoop_succ]
    by_cases hz : (scanRing qlat qlon maxR entries qc r acc).nearest ≠ 0
    · rw [if_pos hz]
      intro hcontra
      apply hz
      have := congrArg Prod.fst hcontra
      exact this
    · rw [if_neg hz]
      obtain ⟨e, he, hq, hge, hle⟩ := hex
      by_cases hd : chebyOf qc e = r
      · exfalso
        apply hz
        apply scanRing_qual hids hs he hq
        apply cell_scanned
        exact Or.inl ⟨by omega, hd⟩
      · apply ih (r + 1) _ (scanRing_sound hs) (by omega) (by omega)
        exact ⟨e, he, hq, by omega, hle⟩

/-- Completeness of `find_nearest`: with nonzero node ids, if some inserted
record lies within `max_radius_m` and within 1000 grid cells (Chebyshev) of
the query cell, the search does not return the failure sentinel. -/
theorem findNearest_finds {qlat qlon maxR : ℝ} {entries : List GridEntry}
    (hids : ∀ e' ∈ entries, e'.node_id ≠ 0)
    (hex : ∃ e ∈ entries, haversine_m qlat qlon e.lat e.lon ≤ maxR ∧
      chebyOf (gridCellOf qlat qlon) e ≤ 1000) :
    findNearest entries qlat qlon maxR ≠ (0, none) := by
  unfold findNearest
  obtain ⟨e, he, hq, hle⟩ := hex
  rw [findNearestLoop_succ]
  by_cases hz : (scanRing qlat qlon maxR entries (gridCellOf qlat qlon) 1 ⟨0, none⟩).nearest ≠ 0
  · rw [if_pos hz]
    intro hcontra
    exact hz (congrArg Prod.fst hcontra)
  · rw [if_neg hz]
    by_cases hd : chebyOf (gridCellOf qlat qlon) e ≤ 1
    · exfalso
      apply hz
      apply scanRing_qual hids (Or.inl rfl) he hq
      apply cell_scanned
      exact Or.inr ⟨rfl, hd⟩
    · apply findNearestLoop_finds hids 999 2 _ (scanRing_sound (Or.inl rfl))
        (by omega) (by omega)
      exact ⟨e, he, hq, by omega, hle⟩

/-- `find_nearest` never returns the failure sentinel pair in any other
shape: a successful result names an inserted record at its true haversine
distance, within `max_radius_m`. -/
theorem findNearest_sound {qlat qlon maxR : ℝ} {entries : List GridEntry} :
    findNearest entries qlat qlon maxR = (0, none) ∨
    ∃ e ∈ entries, findNearest entries qlat qlon maxR =
      (e.node_id, some (haversine_m qlat qlon e.lat e.lon)) ∧
      haversine_m qlat qlon e.lat e.lon ≤ maxR :=
  findNearestLoop_sound 1000 1 ⟨0, none⟩ (Or.inl rfl)

/-- If no record within 1000 Chebyshev cells of the query cell lies within
`max_radius_m`, the search returns the failure sentinel. -/
theorem findNearest_none {qlat qlon maxR : ℝ} {entries : List GridEntry}
    (hno : ∀ e ∈ entries, chebyOf (gridCellOf qlat qlon) e ≤ 1000 →
      ¬ haversine_m qlat qlon e.lat e.lon ≤ maxR) :
    findNearest entries qlat qlon maxR = (0, none) :=
  findNearestLoop_skip hno 1000 1 (by omega) (by omega)

theorem foldl_dsiInsert (l acc : List GridEntry) :
    l.foldl dsiInsert acc = acc ++ l := by
  induction l generalizing acc with
  | nil => simp
  | cons e t ih =>
    rw [List.foldl_cons, ih]
    simp [dsiInsert]

/-- Claim C2, counterexample to the claim as stated.  One record is inserted
at `(0°, 20°)` and the query point is `(0°, 0°)` with
`max_radius_m = 10^8`.  The inserted node is within `max_radius_m` of the
query point (every haversine value is at most `6371000·π < 10^8`), yet
`find_nearest` returns the failure sentinel `(0, DBL_MAX)`: the record's grid
cell is 2000 cells away in longitude, beyond the hard `max_radius_cells
= 1000` search bound, so its cell is never scanned.  This refutes the
claimed equivalence "returns none iff no inserted node lies within
`max_radius_m`". -/
theorem claim_C2_counterexample :
    findNearest ([⟨1, 0, 20⟩] : List GridEntry) 0 0 100000000 = (0, none) ∧
    ¬ (∀ e ∈ ([⟨1, 0, 20⟩] : List GridEntry),
        ¬ haversine_m 0 0 e.lat e.lon ≤ 100000000) := by
  have hcell : gridCellOf (0 : ℝ) (20 : ℝ) = (0, 2000) := by
    unfold gridCellOf
    have h1 : (0 : ℝ) / 0.01 = ((0 : ℤ) : ℝ) := by norm_num
    have h2 : (20 : ℝ) / 0.01 = ((2000 : ℤ) : ℝ) := by norm_num
    rw [h1, h2, Int.floor_intCast, Int.floor_intCast]
  have hqcell : gridCellOf (0 : ℝ) (0 : ℝ) = (0, 0) := by
    unfold gridCellOf
    have h1 : (0 : ℝ) / 0.01 = ((0 : ℤ) : ℝ) := by norm_num
    rw [h1, Int.floor_intCast]
  constructor
  · apply findNearest_none
    intro e he hcheby
    rw [List.mem_singleton] at he
    subst he
    exfalso
    unfold chebyOf chebyCells at hcheby
    simp only at hcheby
    rw [hcell, hqcell] at hcheby
    simp at hcheby
  · intro hall
    apply hall ⟨1, 0, 20⟩ (List.mem_singleton_self _)
    calc haversine_m 0 0 (⟨1, 0, 20⟩ : GridEntry).lat (⟨1, 0, 20⟩ : GridEntry).lon
        ≤ 6371000 * π := haversine_m_le _ _ _ _
      _ ≤ 100000000 := by nlinarith [Real.pi_lt_d2]

/-- Claim C2 (amended): over any sequence of `insert` calls with nonzero node
ids, `find_nearest` returns the failure sentinel `(0, DBL_MAX)` iff no
inserted node lying within 1000 grid cells (Chebyshev, the
`max_radius_cells` search bound) of the query cell is within haversine
distance `max_radius_m`; any other return value names an inserted node
together with its true haversine distance from the query point, which is at
most `max_radius_m`. -/
theorem claim_C2_amended (inserts : List GridEntry) (qlat qlon maxR : ℝ)
    (hids : ∀ e ∈ inserts, e.node_id ≠ 0) :
    (findNearest (inserts.foldl dsiInsert []) qlat qlon maxR = (0, none) ↔
      ∀ e ∈ inserts, haversine_m qlat qlon e.lat e.lon ≤ maxR →
        1000 < chebyOf (gridCellOf qlat qlon) e) ∧
    (∀ p : ℤ × Option ℝ, findNearest (inserts.foldl dsiInsert []) qlat qlon maxR = p →
      p ≠ (0, none) →
      ∃ e ∈ inserts, p = (e.node_id, some (haversine_m qlat qlon e.lat e.lon)) ∧
        haversine_m qlat qlon e.lat e.lon ≤ maxR) := by
  rw [foldl_dsiInsert]
  rw [List.nil_append]
  constructor
  · constructor
    · intro hnone
      by_contra hneg
      push_neg at hneg
      obtain ⟨e, he, hq, hcheby⟩ := hneg
      exact findNearest_finds hids ⟨e, he, hq, hcheby⟩ hnone
    · intro hfar
      apply findNearest_none
      intro e he hcheby hq
      exact absurd (hfar e he hq) (by omega)
  · intro p hp hpne
    rcases @findNearest_sound qlat qlon maxR inserts with hnone | ⟨e, he, heq, hle⟩
    · rw [hp] at hnone; exact absurd hnone hpne
    · rw [hp] at heq
      exact ⟨e, he, heq, hle⟩

/-- Witness for C2 (amended) at a concrete input: a single record with id 1
at the query point itself. -/
theorem claim_C2_witness :
    (findNearest (([⟨1, 0, 0⟩] : List GridEntry).foldl dsiInsert []) 0 0 10000
        = (0, none) ↔
      ∀ e ∈ ([⟨1, 0, 0⟩] : List GridEntry),
        haversine_m 0 0 e.lat e.lon ≤ 10000 →
          1000 < chebyOf (gridCellOf 0 0) e) ∧
    (∀ p : ℤ × Option ℝ,
      findNearest (([⟨1, 0, 0⟩] : List GridEntry).foldl dsiInsert []) 0 0 10000 = p →
      p ≠ (0, none) →
      ∃ e ∈ ([⟨1, 0, 0⟩] : List GridEntry),
        p = (e.node_id, some (haversine_m 0 0 e.lat e.lon)) ∧
          haversine_m 0 0 e.lat e.lon ≤ 10000) :=
  claim_C2_amended [⟨1, 0, 0⟩] 0 0 10000
    (by
      intro e he
      rw [List.mem_singleton] at he
      subst he
      decide)

/-! ## Component bridger (`connect_components.cpp`)

`find_closest_nodes` iterates over the nodes of a non-primary component,
queries the grid index (built from the primary component) with the **default**
`max_radius_m = 10000`, and keeps the strictly-improving minimum-distance
pair.  The node-location lookup (`SparseFileArray::get`, which can throw, plus
the `loc.valid()` check — both failure modes cause a `continue`) is modelled
as `loc : ℤ → Option (ℝ × ℝ)`.  `main` then pushes a synthetic way iff both
returned ids are nonzero. -/

/-- Running state of the `find_closest_nodes` loop: `min_distance` (with
`none` for the initial `DBL_MAX`) and the best pair `(node1, node2)`. -/
structure FCAcc where
  minDist : Option ℝ
  node1 : ℤ
  node2 : ℤ

/-- One iteration of the `find_closest_nodes` loop.  When the query returns a
pair whose distance is the `DBL_MAX` sentinel (modelled `none`) the update
condition `dist < min_distance` is false — `min_distance ≤ DBL_MAX` always —
so the accumulator is kept. -/
noncomputable def fcStep (entries : List GridEntry) (loc : ℤ → Option (ℝ × ℝ))
    (acc : FCAcc) (n1 : ℤ) : FCAcc :=
  match loc n1 with
  | none => acc
  | some (la, lo) =>
    match findNearest entries la lo 10000 with
    | (_, none) => acc
    | (n2, some d) =>
      if n2 = 0 then acc
      else
        match acc.minDist with
        | none => ⟨some d, n1, n2⟩
        | some m => if d < m then ⟨some d, n1, n2⟩ else acc

/-- `find_closest_nodes`: fold the update over the component's nodes (the
iteration order of the node set is the list order of `comp`). -/
noncomputable def findClosestNodes (comp : List ℤ) (loc : ℤ → Option (ℝ × ℝ))
    (entries : List GridEntry) : ℤ × ℤ :=
  let acc := comp.foldl (fcStep entries loc) ⟨none, 0, 0⟩
  (acc.node1, acc.node2)

/-- The bridge `main` emits for one non-primary component: the
`find_closest_nodes` pair if both ids are nonzero, otherwise nothing. -/
noncomputable def componentBridge (comp : List ℤ) (loc : ℤ → Option (ℝ × ℝ))
    (entries : List GridEntry) : Option (ℤ × ℤ) :=
  match findClosestNodes comp loc entries with
  | (n1, n2) => if n1 ≠ 0 ∧ n2 ≠ 0 then some (n1, n2) else none

/-- Invariant of the `find_closest_nodes` fold over the already-processed
prefix `seen`. -/
def FCInv (entries : List GridEntry) (loc : ℤ → Option (ℝ × ℝ))
    (seen : List ℤ) (acc : FCAcc) : Prop :=
  (acc = ⟨none, 0, 0⟩ ∧
    ∀ a ∈ seen, ∀ la lo, loc a = some (la, lo) →
      ∀ m dm, findNearest entries la lo 10000 = (m, some dm) → m = 0) ∨
  (∃ d, acc.minDist = some d ∧ acc.node1 ∈ seen ∧ acc.node2 ≠ 0 ∧
    (∃ la lo, loc acc.node1 = some (la, lo) ∧
      findNearest entries la lo 10000 = (acc.node2, some d)) ∧
    (∀ a ∈ seen, ∀ la lo, loc a = some (la, lo) →
      ∀ m dm, findNearest entries la lo 10000 = (m, some dm) → m ≠ 0 → d ≤ dm))

theorem fcStep_eq_noloc {entries : List GridEntry} {loc : ℤ → Option (ℝ × ℝ)}
    {acc : FCAcc} {n1 : ℤ} (hloc : loc n1 = none) :
    fcStep entries loc acc n1 = acc := by
  simp only [fcStep, hloc]

theorem fcStep_eq_qnone {entries : List GridEntry} {loc : ℤ → Option (ℝ × ℝ)}
    {acc : FCAcc} {n1 : ℤ} {la lo : ℝ} {m0 : ℤ}
    (hloc : loc n1 = some (la, lo))
    (hq : findNearest entries la lo 10000 = (m0, none)) :
    fcStep entries loc acc n1 = acc := by
  simp only [fcStep, hloc, hq]

theorem fcStep_eq_zero {entries : List GridEntry} {loc : ℤ → Option (ℝ × ℝ)}
    {acc : FCAcc} {n1 : ℤ} {la lo : ℝ} {d0 : ℝ}
    (hloc : loc n1 = some (la, lo))
    (hq : findNearest entries la lo 10000 = (0, some d0)) :
    fcStep entries loc acc n1 = acc := by
  simp only [fcStep, hloc, hq]
  simp

theorem fcStep_eq_upd_init {entries : List GridEntry} {loc : ℤ → Option (ℝ × ℝ)}
    {acc : FCAcc} {n1 : ℤ} {la lo : ℝ} {n2 : ℤ} {d0 : ℝ}
    (hloc : loc n1 = some (la, lo))
    (hq : findNearest entries la lo 10000 = (n2, some d0))
    (hz : n2 ≠ 0) (hmd : acc.minDist = none) :
    fcStep entries loc acc n1 = ⟨some d0, n1, n2⟩ := by
  simp only [fcStep, hloc, hq, if_neg hz, hmd]

theorem fcStep_eq_upd {entries : List GridEntry} {loc : ℤ → Option (ℝ × ℝ)}
    {acc : FCAcc} {n1 : ℤ} {la lo : ℝ} {n2 : ℤ} {d0 m : ℝ}
    (hloc : loc n1 = some (la, lo))
    (hq : findNearest entries la lo 10000 = (n2, some d0))
    (hz : n2 ≠ 0) (hmd : acc.minDist = some m) (hlt : d0 < m) :
    fcStep entries loc acc n1 = ⟨some d0, n1, n2⟩ := by
  simp only [fcStep, hloc, hq, if_neg hz, hmd, if_pos hlt]

theorem fcStep_eq_keep {entries : List GridEntry} {loc : ℤ → Option (ℝ × ℝ)}
    {acc : FCAcc} {n1 : ℤ} {la lo : ℝ} {n2 : ℤ} {d0 m : ℝ}
    (hloc : loc n1 = some (la, lo))
    (hq : findNearest entries la lo 10000 = (n2, some d0))
    (hz : n2 ≠ 0) (hmd : acc.minDist = some m) (hlt : ¬ d0 < m) :
    fcStep entries loc acc n1 = acc := by
  simp only [fcStep, hloc, hq, if_neg hz, hmd, if_neg hlt]

theorem fcStep_inv {entries : List GridEntry} {loc : ℤ → Option (ℝ × ℝ)}
    {seen : List ℤ} {acc : FCAcc} {n1 : ℤ}
    (h : FCInv entries loc seen acc) :
    FCInv entries loc (seen ++ [n1]) (fcStep entries loc acc n1) := by
  rcases hloc : loc n1 with _ | ⟨la, lo⟩
  · rw [fcStep_eq_noloc hloc]
    rcases h with ⟨ha, hall⟩ | ⟨d, hd, hm, hn2, hqq, hall⟩
    · refine Or.inl ⟨ha, ?_⟩
      intro a haseen la lo hla m dm hmq
      rcases List.mem_append.mp haseen with h' | h'
      · exact hall a h' la lo hla m dm hmq
      · rw [List.mem_singleton] at h'
        subst h'
        rw [hloc] at hla
        cases hla
    · refine Or.inr ⟨d, hd, List.mem_append_left _ hm, hn2, hqq, ?_⟩
      intro a haseen la lo hla m dm hmq hmne
      rcases List.mem_append.mp haseen with h' | h'
      · exact hall a h' la lo hla m dm hmq hmne
      · rw [List.mem_singleton] at h'
        subst h'
        rw [hloc] at hla
        cases hla
  · rcases hq : findNearest entries la lo 10000 with ⟨m0, _ | d0⟩
    · rw [fcStep_eq_qnone hloc hq]
      rcases h with ⟨ha, hall⟩ | ⟨d, hd, hm, hn2, hqq, hall⟩
      · refine Or.inl ⟨ha, ?_⟩
        intro a haseen la2 lo2 hla m dm hmq
        rcases List.mem_append.mp haseen with h' | h'
        · exact hall a h' la2 lo2 hla m dm hmq
        · rw [List.mem_singleton] at h'
          subst h'
          rw [hloc] at hla
          cases hla
          rw [hq] at hmq
          cases hmq
      · refine Or.inr ⟨d, hd, List.mem_append_left _ hm, hn2, hqq, ?_⟩
        intro a haseen la2 lo2 hla m dm hmq hmne
        rcases List.mem_append.mp haseen with h' | h'
        · exact hall a h' la2 lo2 hla m dm hmq hmne
        · rw [List.mem_singleton] at h'
          subst h'
          rw [hloc] at hla
          cases hla
          rw [hq] at hmq
          cases hmq
    · by_cases hz : m0 = 0
      · subst hz
        rw [fcStep_eq_zero hloc hq]
        rcases h with ⟨ha, hall⟩ | ⟨d, hd, hm, hn2, hqq, hall⟩
        · refine Or.inl ⟨ha, ?_⟩
          intro a haseen la2 lo2 hla m dm hmq
          rcases List.mem_append.mp haseen with h' | h'
          · exact hall a h' la2 lo2 hla m dm hmq
          · rw [List.mem_singleton] at h'
            subst h'
            rw [hloc] at hla
            cases hla
            rw [hq] at hmq
            cases hmq
            rfl
        · refine Or.inr ⟨d, hd, List.mem_append_left _ hm, hn2, hqq, ?_⟩
          intro a haseen la2 lo2 hla m dm hmq hmne
          rcases List.mem_append.mp haseen with h' | h'
          · exact hall a h' la2 lo2 hla m dm hmq hmne
          · rw [List.mem_singleton] at h'
            subst h'
            rw [hloc] at hla
            cases hla
            rw [hq] at hmq
            cases hmq
            exact absurd rfl hmne
      · rcases h with ⟨ha, hall⟩ | ⟨d, hd, hm, hn2, hqq, hall⟩
        · have hmd : acc.minDist = none := by rw [ha]
          rw [fcStep_eq_upd_init hloc hq hz hmd]
          refine Or.inr ⟨d0, rfl,
            List.mem_append_right _ (List.mem_singleton_self _),
            hz, ⟨la, lo, hloc, hq⟩, ?_⟩
          intro a haseen la2 lo2 hla m dm hmq hmne
          rcases List.mem_append.mp haseen with h' | h'
          · exact absurd (hall a h' la2 lo2 hla m dm hmq) hmne
          · rw [List.mem_singleton] at h'
            subst h'
            rw [hloc] at hla
            cases hla
            rw [hq] at hmq
            cases hmq
            exact le_refl _
        · by_cases hlt : d0 < d
          · rw [fcStep_eq_upd hloc hq hz hd hlt]
            refine Or.inr ⟨d0, rfl,
              List.mem_append_right _ (List.mem_singleton_self _),
              hz, ⟨la, lo, hloc, hq⟩, ?_⟩
            intro a haseen la2 lo2 hla m dm hmq hmne
            rcases List.mem_append.mp haseen with h' | h'
            · exact le_of_lt
                (lt_of_lt_of_le hlt (hall a h' la2 lo2 hla m dm hmq hmne))
            · rw [List.mem_singleton] at h'
              subst h'
              rw [hloc] at hla
              cases hla
              rw [hq] at hmq
              cases hmq
              exact le_refl _
          · rw [fcStep_eq_keep hloc hq hz hd hlt]
            refine Or.inr ⟨d, hd, List.mem_append_left _ hm, hn2, hqq, ?_⟩
            intro a haseen la2 lo2 hla m dm hmq hmne
            rcases List.mem_append.mp haseen with h' | h'
            · exact hall a h' la2 lo2 hla m dm hmq hmne
            · rw [List.mem_singleton] at h'
              subst h'
              rw [hloc] at hla
              cases hla
              rw [hq] at hmq
              cases hmq
              exact le_of_not_lt hlt

theorem foldl_fcStep_inv {entries : List GridEntry} {loc : ℤ → Option (ℝ × ℝ)}
    (comp : List ℤ) :
    ∀ (seen : List ℤ) (acc : FCAcc), FCInv entries loc seen acc →
      FCInv entries loc (seen ++ comp) (comp.foldl (fcStep entries loc) acc) := by
  induction comp with
  | nil => intro seen acc h; simpa using h
  | cons n t ih =>
    intro seen acc h
    rw [List.foldl_cons]
    have := ih (seen ++ [n]) _ (fcStep_inv h)
    simpa using this

/-- Claim C1, counterexample to the claim as stated.  A singleton non-primary
component at `(0°, 0°)` and a primary component with one node at `(0°, 1°)`:
the minimum haversine distance between the components exists (≈111 km), but
`find_closest_nodes` queries the grid index with its default
`max_radius_m = 10000`, every query fails (the only primary node is ≈111 km
away), `find_closest_nodes` returns `(0, 0)`, and `main` emits **no**
synthetic bridge for the component at all — contradicting the claim that a
bridge pair attaining the minimum haversine distance is emitted. -/
theorem claim_C1_counterexample :
    ([⟨2, 0, 1⟩] : List GridEntry) ≠ [] ∧
    (fun n : ℤ => if n = 1 then some ((0 : ℝ), (0 : ℝ)) else none) 1
      = some (0, 0) ∧
    componentBridge [1]
      (fun n : ℤ => if n = 1 then some ((0 : ℝ), (0 : ℝ)) else none)
      [⟨2, 0, 1⟩] = none := by
  refine ⟨by simp, by simp, ?_⟩
  have hfar : ¬ haversine_m 0 0 (0 : ℝ) (1 : ℝ) ≤ 10000 := by
    have heq : haversine_m 0 0 (0 : ℝ) (1 : ℝ) = 6371000 * (1 * π / 180) := by
      have := haversine_m_equator (l := 0) (d := 1) (by norm_num) (by norm_num)
      simpa using this
    rw [heq]
    push_neg
    nlinarith [Real.pi_gt_three]
  have hq : findNearest [⟨2, 0, 1⟩] 0 0 10000 = (0, none) := by
    apply findNearest_none
    intro e he _
    rw [List.mem_singleton] at he
    subst he
    exact hfar
  have hloc : (fun n : ℤ => if n = 1 then some ((0 : ℝ), (0 : ℝ)) else none) 1
      = some (0, 0) := by simp
  unfold componentBridge findClosestNodes
  rw [List.foldl_cons, List.foldl_nil, fcStep_eq_qnone hloc hq]
  simp

/-- Claim C1 (amended): when `main` does emit a bridge `(n1, n2)` for a
non-primary component, then `n1` is a component node with a valid location,
`n2` is an inserted (primary-component) node, the recorded distance `d` is
the true haversine distance from `n1`'s location to `n2`'s and is at most the
default query radius 10000 m, and `d` is minimal **among the grid index's
approximate nearest-neighbour answers** over all located nodes of the
component — not necessarily the true minimum haversine distance between the
components (the ring search is approximate and capped at 10 km; when every
query fails, no bridge is emitted at all). -/
theorem claim_C1_amended (comp : List ℤ) (loc : ℤ → Option (ℝ × ℝ))
    (entries : List GridEntry) (n1 n2 : ℤ)
    (hb : componentBridge comp loc entries = some (n1, n2)) :
    n1 ∈ comp ∧ n2 ≠ 0 ∧
    ∃ la lo d, loc n1 = some (la, lo) ∧
      findNearest entries la lo 10000 = (n2, some d) ∧
      (∃ e ∈ entries, n2 = e.node_id ∧ d = haversine_m la lo e.lat e.lon ∧
        d ≤ 10000) ∧
      ∀ a ∈ comp, ∀ la2 lo2 m dm, loc a = some (la2, lo2) →
        findNearest entries la2 lo2 10000 = (m, some dm) → m ≠ 0 → d ≤ dm := by
  have hinv0 : FCInv entries loc [] ⟨none, 0, 0⟩ := by
    refine Or.inl ⟨rfl, ?_⟩
    intro a ha
    cases ha
  have hinv := foldl_fcStep_inv comp [] ⟨none, 0, 0⟩ hinv0
  rw [List.nil_append] at hinv
  unfold componentBridge findClosestNodes at hb
  set F := comp.foldl (fcStep entries loc) ⟨none, 0, 0⟩ with hF
  simp only at hb
  by_cases hcond : F.node1 ≠ 0 ∧ F.node2 ≠ 0
  · rw [if_pos hcond] at hb
    have hpair : F.node1 = n1 ∧ F.node2 = n2 := by
      have := Option.some.inj hb
      exact ⟨congrArg Prod.fst this, congrArg Prod.snd this⟩
    rcases hinv with ⟨hinit, _⟩ | ⟨d, hd, hm, hn2, ⟨la, lo, hloc, hqq⟩, hall⟩
    · exfalso
      apply hcond.1
      rw [hinit]
    · refine ⟨hpair.1 ▸ hm, hpair.2 ▸ hn2, la, lo, d, hpair.1 ▸ hloc,
        hpair.2 ▸ hqq, ?_, ?_⟩
      · rcases @findNearest_sound la lo 10000 entries with hnone | ⟨e, he, heq, hle⟩
        · rw [hqq] at hnone
          exact absurd (congrArg Prod.snd hnone) (by simp)
        · rw [hqq] at heq
          have h1 : F.node2 = e.node_id := congrArg Prod.fst heq
          have h2 : some d = some (haversine_m la lo e.lat e.lon) :=
            congrArg Prod.snd heq
          exact ⟨e, he, hpair.2 ▸ h1, Option.some.inj h2, (Option.some.inj h2) ▸ hle⟩
      · intro a ha la2 lo2 m dm hla hq hm0
        exact hall a ha la2 lo2 hla m dm hq hm0
  · rw [if_neg hcond] at hb
    cases hb

/-- Witness for C1 (amended) at a concrete input where a bridge is emitted:
component `[5]` at the origin, one primary node with id 7 also at the
origin. -/
theorem claim_C1_witness :
    (5 : ℤ) ∈ [(5 : ℤ)] ∧ (7 : ℤ) ≠ 0 ∧
    ∃ la lo d,
      (fun n : ℤ => if n = 5 then some ((0 : ℝ), (0 : ℝ)) else none) 5
        = some (la, lo) ∧
      findNearest [⟨7, 0, 0⟩] la lo 10000 = (7, some d) ∧
      (∃ e ∈ ([⟨7, 0, 0⟩] : List GridEntry), (7 : ℤ) = e.node_id ∧
        d = haversine_m la lo e.lat e.lon ∧ d ≤ 10000) ∧
      ∀ a ∈ [(5 : ℤ)], ∀ la2 lo2 m dm,
        (fun n : ℤ => if n = 5 then some ((0 : ℝ), (0 : ℝ)) else none) a
          = some (la2, lo2) →
        findNearest [⟨7, 0, 0⟩] la2 lo2 10000 = (m, some dm) → m ≠ 0 →
          d ≤ dm := by
  have hids : ∀ e ∈ ([⟨7, 0, 0⟩] : List GridEntry), e.node_id ≠ 0 := by
    intro e he
    rw [List.mem_singleton] at he
    subst he
    decide
  have hfn : findNearest [⟨7, 0, 0⟩] 0 0 10000 = (7, some 0) := by
    have hne := @findNearest_finds 0 0 10000 [⟨7, 0, 0⟩] hids
      ⟨⟨7, 0, 0⟩, List.mem_singleton_self _, by
        rw [haversine_m_self]; norm_num, by
        unfold chebyOf chebyCells
        simp⟩
    rcases @findNearest_sound 0 0 10000 [⟨7, 0, 0⟩] with hnone | ⟨e, he, heq, _⟩
    · exact absurd hnone hne
    · rw [List.mem_singleton] at he
      subst he
      rw [heq]
      rw [haversine_m_self]
  have hloc : (fun n : ℤ => if n = 5 then some ((0 : ℝ), (0 : ℝ)) else none) 5
      = some (0, 0) := by simp
  have hb : componentBridge [5]
      (fun n : ℤ => if n = 5 then some ((0 : ℝ), (0 : ℝ)) else none)
      [⟨7, 0, 0⟩] = some (5, 7) := by
    unfold componentBridge findClosestNodes
    rw [List.foldl_cons, List.foldl_nil,
      fcStep_eq_upd_init hloc hfn (by decide) rfl]
    simp
  exact claim_C1_amended [5]
    (fun n : ℤ => if n = 5 then some ((0 : ℝ), (0 : ℝ)) else none)
    [⟨7, 0, 0⟩] 5 7 hb

/-! ## Address store: annulus sampling, paged samples, HTTP status
(`RoutingEngine.cpp`, `ApiHandlers.cpp`)

The address store is a flat array of `N` addresses indexed `0..N-1`; the
model works with indices (the C++ code returns `addresses_[i]`, a pointwise
lookup).  Distances are exact rationals — every `float`/`double` value is a
rational.  Two external collaborators are abstracted:
  * the geo index (`RoutingKit::GeoPositionToNode`,
    `find_all_nodes_within_radius`), whose contract is to return exactly the
    addresses within the given radius, each paired with its distance: it is
    modelled by a distance table `dist : ℕ → ℚ` from the query's centre;
  * `std::mt19937` plus `std::uniform_int_distribution<size_t>(0, k-1)`,
    modelled by a selector `sel : ℕ → ℕ` (from the candidate count to the
    chosen slot); call sites rely only on `sel k < k` for `k > 0`, which the
    C++ distribution guarantees. -/

/-- `RoutingEngine::getUniformRandomAddressInAnnulus`, translated branch by
branch: empty-store check first, then the `min < 0 ∨ max ≤ min` validation
(on meters, after the ×1000 conversion), then the radius query, the
`dist ≥ min ∧ id < size` filter, the emptiness check, and the uniform pick.
Returns the index of the chosen address. -/
def uniformAnnulus (N : ℕ) (dist : ℕ → ℚ) (minKm maxKm : ℚ) (sel : ℕ → ℕ) :
    Option ℕ :=
  if N = 0 then none
  else
    let minM := minKm * 1000
    let maxM := maxKm * 1000
    if minM < 0 ∨ maxM ≤ minM then none
    else
      let candidates := (List.range N).filter (fun i => decide (dist i ≤ maxM))
      let valid := candidates.filter
        (fun i => decide (minM ≤ dist i) && decide (i < N))
      if valid.isEmpty then none
      else some (valid.getD (sel valid.length) 0)

/-- `ApiHandlers::handleUniformRandomAddressInAnnulus` after successful
parameter parsing (non-numeric or missing parameters are rejected with 400
before the engine is consulted; that path takes no part in the modelled
claim): empty store → 404, engine returned nothing → 404, otherwise 200. -/
def annulusHandlerStatus (N : ℕ) (dist : ℕ → ℚ) (minKm maxKm : ℚ)
    (sel : ℕ → ℕ) : ℕ :=
  if N = 0 then 404
  else
    match uniformAnnulus N dist minKm maxKm sel with
    | none => 404
    | some _ => 200

theorem mem_uniformAnnulus_valid {N : ℕ} {dist : ℕ → ℚ} {minM maxM : ℚ} {j : ℕ}
    (hj : j ∈ ((List.range N).filter (fun i => decide (dist i ≤ maxM))).filter
      (fun i => decide (minM ≤ dist i) && decide (i < N))) :
    j < N ∧ minM ≤ dist j ∧ dist j ≤ maxM := by
  rw [List.mem_filter] at hj
  obtain ⟨hj1, hj2⟩ := hj
  rw [List.mem_filter] at hj1
  obtain ⟨hj0, hj3⟩ := hj1
  rw [List.mem_range] at hj0
  simp only [Bool.and_eq_true, decide_eq_true_eq] at hj2 hj3
  exact ⟨hj0, hj2.1, hj3⟩

/-- Claim C3: with a valid annulus (`min_km ≥ 0`, `max_km > min_km`) and the
guaranteed in-range selector, `getUniformRandomAddressInAnnulus` returns
nothing exactly when no address lies in the closed annulus
`[min_km·1000, max_km·1000]` around the centre, and any returned address
lies in that annulus. -/
theorem claim_C3 (N : ℕ) (dist : ℕ → ℚ) (minKm maxKm : ℚ) (sel : ℕ → ℕ)
    (hmin : 0 ≤ minKm) (hmax : minKm < maxKm)
    (hsel : ∀ k, 0 < k → sel k < k) :
    (uniformAnnulus N dist minKm maxKm sel = none ↔
      ∀ i < N, ¬ (minKm * 1000 ≤ dist i ∧ dist i ≤ maxKm * 1000)) ∧
    (∀ j, uniformAnnulus N dist minKm maxKm sel = some j →
      j < N ∧ minKm * 1000 ≤ dist j ∧ dist j ≤ maxKm * 1000) := by
  have hvalid : ¬ (minKm * 1000 < 0 ∨ maxKm * 1000 ≤ minKm * 1000) := by
    push_neg
    constructor
    · positivity
    · nlinarith
  unfold uniformAnnulus
  by_cases hN : N = 0
  · subst hN
    simp only [if_pos rfl]
    refine ⟨⟨fun _ => ?_, fun _ => rfl⟩, fun j h => by cases h⟩
    intro i hi
    omega
  · rw [if_neg hN]
    simp only [if_neg hvalid]
    set valid := ((List.range N).filter
        (fun i => decide (dist i ≤ maxKm * 1000))).filter
      (fun i => decide (minKm * 1000 ≤ dist i) && decide (i < N)) with hv
    by_cases hve : valid.isEmpty
    · rw [if_pos hve]
      rw [List.isEmpty_iff] at hve
      constructor
      · refine ⟨fun _ => ?_, fun _ => rfl⟩
        intro i hi hcond
        have hmem : i ∈ valid := by
          rw [hv]
          rw [List.mem_filter, List.mem_filter, List.mem_range]
          refine ⟨⟨hi, by simp [hcond.2]⟩, by simp [hcond.1, hi]⟩
        rw [hve] at hmem
        cases hmem
      · intro j h
        cases h
    · rw [if_neg hve]
      constructor
      · constructor
        · intro h
          cases h
        · intro hall
          exfalso
          apply hve
          rw [List.isEmpty_iff, List.eq_nil_iff_forall_not_mem]
          intro j hj
          have := mem_uniformAnnulus_valid (hv ▸ hj)
          exact hall j this.1 ⟨this.2.1, this.2.2⟩
      · intro j h
        have hjeq : valid.getD (sel valid.length) 0 = j := Option.some.inj h
        have hlen : 0 < valid.length := by
          rw [List.isEmpty_iff] at hve
          exact List.length_pos.mpr hve
        have hmem : valid.getD (sel valid.length) 0 ∈ valid := by
          rw [List.getD_eq_getElem valid 0 (hsel _ hlen)]
          exact List.getElem_mem _
        rw [hjeq] at hmem
        exact mem_uniformAnnulus_valid (hv ▸ hmem)

/-- Witness for C3 at a concrete input: one address at distance 0 from the
centre, annulus `[0 km, 1 km]`. -/
theorem claim_C3_witness :
    (uniformAnnulus 1 (fun _ => 0) 0 1 (fun _ => 0) = none ↔
      ∀ i < 1, ¬ ((0 : ℚ) * 1000 ≤ (fun _ => (0 : ℚ)) i ∧
        (fun _ => (0 : ℚ)) i ≤ 1 * 1000)) ∧
    (∀ j, uniformAnnulus 1 (fun _ => 0) 0 1 (fun _ => 0) = some j →
      j < 1 ∧ (0 : ℚ) * 1000 ≤ (fun _ => (0 : ℚ)) j ∧
        (fun _ => (0 : ℚ)) j ≤ 1 * 1000) :=
  claim_C3 1 (fun _ => 0) 0 1 (fun _ => 0) (by norm_num) (by norm_num)
    (fun k hk => hk)

/-- Claim C10: both an empty address store and invalid distance parameters
(`min < 0` or `max ≤ min`, checked in meters) produce "absent" rather than a
distinct error — the engine's empty-store check runs before parameter
validation, so an empty store yields `nullopt` even with invalid parameters —
and the HTTP handler maps both to a 404 response, never a 400. -/
theorem claim_C10 (N : ℕ) (dist : ℕ → ℚ) (minKm maxKm : ℚ) (sel : ℕ → ℕ)
    (h : N = 0 ∨ minKm * 1000 < 0 ∨ maxKm * 1000 ≤ minKm * 1000) :
    uniformAnnulus N dist minKm maxKm sel = none ∧
    annulusHandlerStatus N dist minKm maxKm sel = 404 ∧
    annulusHandlerStatus N dist minKm maxKm sel ≠ 400 ∧
    (N = 0 → uniformAnnulus N dist minKm maxKm sel = none) := by
  have hnone : uniformAnnulus N dist minKm maxKm sel = none := by
    unfold uniformAnnulus
    rcases h with h | h
    · rw [if_pos h]
    · by_cases hN : N = 0
      · rw [if_pos hN]
      · rw [if_neg hN]
        simp only [if_pos h]
  have hstat : annulusHandlerStatus N dist minKm maxKm sel = 404 := by
    unfold annulusHandlerStatus
    by_cases hN : N = 0
    · rw [if_pos hN]
    · rw [if_neg hN, hnone]
  exact ⟨hnone, hstat, by rw [hstat]; omega, fun _ => hnone⟩

/-- Witness for C10 at a concrete input: empty store and inverted annulus
(`min = 2 km > max = 1 km`). -/
theorem claim_C10_witness :
    uniformAnnulus 0 (fun _ => 0) 2 1 (fun _ => 0) = none ∧
    annulusHandlerStatus 0 (fun _ => 0) 2 1 (fun _ => 0) = 404 ∧
    annulusHandlerStatus 0 (fun _ => 0) 2 1 (fun _ => 0) ≠ 400 ∧
    ((0 : ℕ) = 0 → uniformAnnulus 0 (fun _ => 0) 2 1 (fun _ => 0) = none) :=
  claim_C10 0 (fun _ => 0) 2 1 (fun _ => 0) (Or.inl rfl)

/-- `RoutingEngine::getAddressSample`, translated branch by branch.
`shuffled` is the index array `0..N-1` after `std::shuffle` with the
seed-initialised generator (the shuffle is deterministic per seed; only its
length is relevant to the claims), `number`/`page_size`/`page_num` are the
query parameters (`unsigned`, so each below `2^32`).  The locals
`start_index = page_num * page_size` and
`end_index = min(start_index + page_size, number)` are computed in 32-bit
unsigned arithmetic, so both the product and the sum wrap modulo `2^32` —
the wrap is kept here.  The early return for `start_index ≥ number`, the
`resize(number)` for `number < N`, the ascending `std::sort` (the shuffle is
a permutation of distinct indices, so sorting is `mergeSort (· ≤ ·)`), and
the page loop `for i in [start_index, end_index) with i < indices.size()`
become the corresponding list operations; the result lists the selected
address indices (`addresses_[·]` is applied pointwise by the C++ code). -/
def addressSample (N : ℕ) (shuffled : List ℕ)
    (number page_size page_num : ℕ) : List ℕ :=
  if N = 0 then []
  else if number ≤ (page_num * page_size) % 2 ^ 32 then []
  else
    (((if number < N then shuffled.take number else shuffled).mergeSort
      (· ≤ ·)).drop ((page_num * page_size) % 2 ^ 32)).take
      (min (((page_num * page_size) % 2 ^ 32 + page_size) % 2 ^ 32) number -
        (page_num * page_size) % 2 ^ 32)

theorem addressSample_slice {N : ℕ} {shuffled : List ℕ}
    {number page_size page_num : ℕ} (hN : shuffled.length = N)
    (hpg : page_num * page_size + page_size < 2 ^ 32) :
    addressSample N shuffled number page_size page_num =
      (((if number < N then shuffled.take number else shuffled).mergeSort
        (· ≤ ·)).drop (page_num * page_size)).take
        (min (page_num * page_size + page_size) number - page_num * page_size) := by
  have h1 : (page_num * page_size) % 2 ^ 32 = page_num * page_size :=
    Nat.mod_eq_of_lt (by omega)
  have h2 : (page_num * page_size + page_size) % 2 ^ 32 =
      page_num * page_size + page_size := Nat.mod_eq_of_lt hpg
  unfold addressSample
  rw [h1, h2]
  by_cases hN0 : N = 0
  · subst hN0
    rw [if_pos rfl]
    have hempty : shuffled = [] := List.length_eq_zero.mp hN
    subst hempty
    simp
  · rw [if_neg hN0]
    by_cases hs : number ≤ page_num * page_size
    · rw [if_pos hs]
      have hlen : ((if number < N then shuffled.take number else shuffled).mergeSort
          (· ≤ ·)).length ≤ number := by
        rw [List.length_mergeSort]
        split
        · simp
        · omega
      rw [List.drop_eq_nil_of_le (le_trans hlen hs)]
      simp
    · rw [if_neg hs]

/-- Page-concatenation engine: concatenating the first `K` pages of size `p`
of a list `s` with `s.length ≤ n` recovers `s.take (min (K·p) n)`. -/
theorem pages_concat (s : List ℕ) (p n : ℕ) :
    ∀ K : ℕ, (List.range K).flatMap
        (fun k => ((s.drop (k * p)).take (min (k * p + p) n - k * p)))
      = s.take (min (K * p) n) := by
  intro K
  induction K with
  | zero => simp
  | succ K ih =>
    rw [List.range_succ, List.flatMap_append, ih]
    simp only [List.flatMap_cons, List.flatMap_nil, List.append_nil]
    by_cases hcase : n ≤ K * p
    · have h1 : min (K * p) n = n := by omega
      have h2 : min (K * p + p) n - K * p = 0 := by omega
      have h3 : min ((K + 1) * p) n = n := by
        have : K * p ≤ (K + 1) * p := by
          apply Nat.mul_le_mul_right
          omega
        omega
      rw [h1, h2, h3]
      simp
    · have h1 : min (K * p) n = K * p := by omega
      have h2 : K * p + (min (K * p + p) n - K * p) = min (K * p + p) n := by
        omega
      have h3 : min ((K + 1) * p) n = min (K * p + p) n := by
        have : (K + 1) * p = K * p + p := by ring
        rw [this]
      rw [h1, h3, ← h2, List.take_add]
      simp [Nat.add_sub_cancel_left]

theorem flatMap_congr_mem {α β : Type} {l : List α} {f g : α → List β}
    (h : ∀ a ∈ l, f a = g a) : l.flatMap f = l.flatMap g := by
  induction l with
  | nil => rfl
  | cons a l ih =>
    rw [List.flatMap_cons, List.flatMap_cons, h a (List.mem_cons_self a l),
      ih (fun b hb => h b (List.mem_cons_of_mem a hb))]

/-- Claim C4 counterexample: the claimed paging law says page `page_num` is
the slice `[page_num·p, (page_num+1)·p)` of the sorted truncated shuffle —
for `page_num = 2^31`, `p = 2` that slice is empty.  But `getAddressSample`
computes `start_index = page_num * page_size` in 32-bit unsigned arithmetic,
which wraps to 0, so the program returns page 0's contents (here the whole
2-element sample) instead of the empty page. -/
theorem claim_C4_counterexample :
    addressSample 2 [1, 0] 2 2 (2 ^ 31) ≠
      ((((if 2 < 2 then ([1, 0] : List ℕ).take 2 else [1, 0]).mergeSort
        (· ≤ ·)).drop (2 ^ 31 * 2)).take
        (min (2 ^ 31 * 2 + 2) 2 - 2 ^ 31 * 2)) := by
  have hstart : ((2 ^ 31 : ℕ) * 2) % 2 ^ 32 = 0 := by norm_num
  have hL : (addressSample 2 [1, 0] 2 2 (2 ^ 31)).length = 2 := by
    unfold addressSample
    rw [hstart, if_neg (by norm_num : ¬ (2 : ℕ) = 0),
      if_neg (by norm_num : ¬ (2 : ℕ) ≤ 0),
      if_neg (by norm_num : ¬ (2 : ℕ) < 2)]
    rw [List.length_take, List.length_drop, List.length_mergeSort]
    norm_num
  have hR : (((((if 2 < 2 then ([1, 0] : List ℕ).take 2 else [1, 0]).mergeSort
      (· ≤ ·)).drop (2 ^ 31 * 2)).take
      (min (2 ^ 31 * 2 + 2) 2 - 2 ^ 31 * 2))).length = 0 := by
    rw [if_neg (by norm_num : ¬ (2 : ℕ) < 2)]
    rw [List.drop_eq_nil_of_le]
    · simp
    · rw [List.length_mergeSort]
      norm_num
  intro h
  rw [h, hR] at hL
  exact absurd hL (by norm_num)

/-- Claim C4, amended: below the 32-bit boundary the paging law holds as
specified — whenever `page_num·p + p < 2^32`, page `page_num` of
`getAddressSample` is the slice `[page_num·p, (page_num+1)·p)` of the
seed-determined shuffle truncated to the first `number` indices and sorted
ascending, and (for `number + p < 2^32`, which covers every nonempty page)
concatenating pages `0 … ⌈number/p⌉ - 1` yields exactly that full
deterministic sample, whose length is `min number N`.  Beyond the boundary
the 32-bit locals `start_index`/`end_index` wrap modulo `2^32` and the
program serves an earlier page again instead of the claimed (empty)
slice. -/
theorem claim_C4_amended (N : ℕ) (shuffled : List ℕ) (number page_size : ℕ)
    (hN : shuffled.length = N) (_hn : 1 ≤ number) (hp : 1 ≤ page_size)
    (hnowrap : number + page_size < 2 ^ 32) :
    (∀ page_num, page_num * page_size + page_size < 2 ^ 32 →
      addressSample N shuffled number page_size page_num =
      (((if number < N then shuffled.take number else shuffled).mergeSort
        (· ≤ ·)).drop (page_num * page_size)).take
        (min (page_num * page_size + page_size) number - page_num * page_size)) ∧
    (List.range ((number + page_size - 1) / page_size)).flatMap
        (fun k => addressSample N shuffled number page_size k)
      = (if number < N then shuffled.take number else shuffled).mergeSort
          (· ≤ ·) ∧
    ((if number < N then shuffled.take number else shuffled).mergeSort
        (· ≤ ·)).length = min number N := by
  set s := (if number < N then shuffled.take number else shuffled).mergeSort
    (· ≤ ·) with hs
  have hslen : s.length = min number N := by
    rw [hs, List.length_mergeSort]
    split
    · rw [List.length_take, hN]
    · rw [hN]
      omega
  have hsle : s.length ≤ number := by omega
  refine ⟨fun page_num hpg => addressSample_slice hN hpg, ?_, hslen⟩
  have hK : number ≤ ((number + page_size - 1) / page_size) * page_size := by
    have hdm := Nat.div_add_mod (number + page_size - 1) page_size
    have hmlt : (number + page_size - 1) % page_size < page_size :=
      Nat.mod_lt _ (by omega)
    rw [Nat.mul_comm]
    omega
  have hKp : ((number + page_size - 1) / page_size) * page_size ≤
      number + page_size - 1 := Nat.div_mul_le_self _ _
  calc (List.range ((number + page_size - 1) / page_size)).flatMap
        (fun k => addressSample N shuffled number page_size k)
      = (List.range ((number + page_size - 1) / page_size)).flatMap
        (fun k => ((s.drop (k * page_size)).take
          (min (k * page_size + page_size) number - k * page_size))) := by
        apply flatMap_congr_mem
        intro k hk
        rw [List.mem_range] at hk
        rw [hs]
        apply addressSample_slice hN
        have hle : (k + 1) * page_size ≤
            ((number + page_size - 1) / page_size) * page_size :=
          Nat.mul_le_mul_right _ (by omega)
        have heq : k * page_size + page_size = (k + 1) * page_size := by ring
        omega
    _ = s.take (min (((number + page_size - 1) / page_size) * page_size) number) :=
        pages_concat s page_size number _
    _ = s := List.take_of_length_le (le_min (le_trans hsle hK) hsle)

/-- Witness for C4 (amended) at a concrete input: store of 2 addresses,
shuffle `[1, 0]`, sample size 2, page size 1, all far below the 32-bit
boundary. -/
theorem claim_C4_witness :
    (∀ page_num, page_num * 1 + 1 < 2 ^ 32 →
      addressSample 2 [1, 0] 2 1 page_num =
      ((((if 2 < 2 then ([1, 0] : List ℕ).take 2 else [1, 0]).mergeSort
        (· ≤ ·)).drop (page_num * 1)).take
        (min (page_num * 1 + 1) 2 - page_num * 1))) ∧
    (List.range ((2 + 1 - 1) / 1)).flatMap
        (fun k => addressSample 2 [1, 0] 2 1 k)
      = (if 2 < 2 then ([1, 0] : List ℕ).take 2 else [1, 0]).mergeSort
          (· ≤ ·) ∧
    ((if 2 < 2 then ([1, 0] : List ℕ).take 2 else [1, 0]).mergeSort
        (· ≤ ·)).length = min 2 2 :=
  claim_C4_amended 2 [1, 0] 2 1 rfl (by norm_num) (by norm_num) (by norm_num)

/-! ## Per-(category, region) reservoir (`extract_categorized_places.cpp`)

`SinglePassHandler::apply_reservoir_sampling` operates on a
`std::priority_queue<std::pair<double, PlaceQueueData>, …, std::greater<…>>`
— a min-heap ordered lexicographically on `(key, payload)`, where
`PlaceQueueData` carries `(id, tags_json)` with its own lexicographic `<`.
The heap is modelled as the list of its elements (its order is irrelevant:
the characterisation below is stated on the underlying multiset);
`queue.top()` is the lexicographic minimum, `pop` removes one occurrence of
it.  Keys are exact rationals. -/

/-- `PlaceQueueData`: the heap payload, with its lexicographic order. -/
structure PlaceQueueData where
  id : ℤ
  tags_json : String
deriving DecidableEq

/-- `PlaceQueueData::operator<`: by `id`, then by `tags_json`. -/
def pqdLt (a b : PlaceQueueData) : Prop :=
  a.id < b.id ∨ (a.id = b.id ∧ a.tags_json < b.tags_json)

instance (a b : PlaceQueueData) : Decidable (pqdLt a b) := by
  unfold pqdLt
  infer_instance

/-- `std::pair<double, PlaceQueueData>` comparison: lexicographic. -/
def entryLt (a b : ℚ × PlaceQueueData) : Prop :=
  a.1 < b.1 ∨ (a.1 = b.1 ∧ pqdLt a.2 b.2)

instance (a b : ℚ × PlaceQueueData) : Decidable (entryLt a b) := by
  unfold entryLt
  infer_instance

theorem pqdLt_trans {a b c : PlaceQueueData} (h1 : pqdLt a b) (h2 : pqdLt b c) :
    pqdLt a c := by
  unfold pqdLt at *
  rcases h1 with h1 | ⟨h1, h1'⟩ <;> rcases h2 with h2 | ⟨h2, h2'⟩
  · exact Or.inl (lt_trans h1 h2)
  · exact Or.inl (h2 ▸ h1)
  · exact Or.inl (h1 ▸ h2)
  · exact Or.inr ⟨h1.trans h2, lt_trans h1' h2'⟩

theorem entryLt_trans {a b c : ℚ × PlaceQueueData} (h1 : entryLt a b)
    (h2 : entryLt b c) : entryLt a c := by
  unfold entryLt at *
  rcases h1 with h1 | ⟨h1, h1'⟩ <;> rcases h2 with h2 | ⟨h2, h2'⟩
  · exact Or.inl (lt_trans h1 h2)
  · exact Or.inl (h2 ▸ h1)
  · exact Or.inl (h1 ▸ h2)
  · exact Or.inr ⟨h1.trans h2, pqdLt_trans h1' h2'⟩

/-- `queue.top()` of a nonempty min-heap: the lexicographic minimum of the
elements. -/
def heapMin (h : ℚ × PlaceQueueData) (t : List (ℚ × PlaceQueueData)) :
    ℚ × PlaceQueueData :=
  t.foldl (fun m e => if entryLt e m then e else m) h

theorem heapMin_mem (h : ℚ × PlaceQueueData)
    (t : List (ℚ × PlaceQueueData)) : heapMin h t ∈ h :: t := by
  unfold heapMin
  induction t generalizing h with
  | nil => exact List.mem_cons_self _ _
  | cons e t' ih =>
    rw [List.foldl_cons]
    by_cases hlt : entryLt e h
    · rw [if_pos hlt]
      exact List.mem_cons_of_mem _ (ih e)
    · rw [if_neg hlt]
      rcases List.mem_cons.mp (ih h) with h' | h'
      · rw [h']
        exact List.mem_cons_self _ _
      · exact List.mem_cons_of_mem _ (List.mem_cons_of_mem _ h')

theorem pqdLt_trichotomy (a b : PlaceQueueData) :
    pqdLt a b ∨ a = b ∨ pqdLt b a := by
  unfold pqdLt
  rcases lt_trichotomy a.id b.id with h | h | h
  · exact Or.inl (Or.inl h)
  · rcases lt_trichotomy a.tags_json b.tags_json with h' | h' | h'
    · exact Or.inl (Or.inr ⟨h, h'⟩)
    · refine Or.inr (Or.inl ?_)
      cases a
      cases b
      simp only at h h'
      rw [h, h']
    · exact Or.inr (Or.inr (Or.inr ⟨h.symm, h'⟩))
  · exact Or.inr (Or.inr (Or.inl h))

theorem entryLt_trichotomy (a b : ℚ × PlaceQueueData) :
    entryLt a b ∨ a = b ∨ entryLt b a := by
  unfold entryLt
  rcases lt_trichotomy a.1 b.1 with h | h | h
  · exact Or.inl (Or.inl h)
  · rcases pqdLt_trichotomy a.2 b.2 with h' | h' | h'
    · exact Or.inl (Or.inr ⟨h, h'⟩)
    · refine Or.inr (Or.inl ?_)
      cases a
      cases b
      simp only at h h'
      rw [h, h']
    · exact Or.inr (Or.inr (Or.inr ⟨h.symm, h'⟩))
  · exact Or.inr (Or.inr (Or.inl h))

theorem entryLt_irrefl (a : ℚ × PlaceQueueData) : ¬ entryLt a a := by
  unfold entryLt pqdLt
  rintro (h | ⟨-, h | ⟨-, h⟩⟩) <;> exact lt_irrefl _ h

theorem entryLt_of_not_of_lt {a b c : ℚ × PlaceQueueData}
    (hab : ¬ entryLt a b) (hac : entryLt a c) : entryLt b c := by
  rcases entryLt_trichotomy a b with h | h | h
  · exact absurd h hab
  · exact h ▸ hac
  · exact entryLt_trans h hac

theorem heapMin_min (h : ℚ × PlaceQueueData) (t : List (ℚ × PlaceQueueData)) :
    ∀ e ∈ h :: t, ¬ entryLt e (heapMin h t) := by
  unfold heapMin
  induction t generalizing h with
  | nil =>
    intro e he
    rw [List.mem_singleton] at he
    subst he
    exact entryLt_irrefl _
  | cons x t' ih =>
    intro e he
    rw [List.foldl_cons]
    by_cases hlt : entryLt x h
    · rw [if_pos hlt]
      rcases List.mem_cons.mp he with rfl | he'
      · intro hcontra
        exact ih x x (List.mem_cons_self _ _) (entryLt_trans hlt hcontra)
      · exact ih x e he'
    · rw [if_neg hlt]
      rcases List.mem_cons.mp he with rfl | he'
      · exact ih e e (List.mem_cons_self _ _)
      · rcases List.mem_cons.mp he' with rfl | he''
        · intro hcontra
          exact ih h h (List.mem_cons_self _ _) (entryLt_of_not_of_lt hlt hcontra)
        · exact ih h e (List.mem_cons_of_mem _ he'')

/-- `SinglePassHandler::apply_reservoir_sampling`: push when below
`max_per_region`, otherwise replace the heap minimum when the fresh key is
strictly greater than the minimum key (`random > queue.top().first`).  The
full-and-empty branch (only reachable when `max_per_region ≤ 0`, where the
C++ `queue.top()` is undefined behaviour) is modelled as a plain push; all
claims assume `max_per_region ≥ 1`, which keeps it unreachable. -/
def reservoirInsert (maxPer : ℕ) (u : ℚ) (d : PlaceQueueData)
    (q : List (ℚ × PlaceQueueData)) : List (ℚ × PlaceQueueData) :=
  if q.length < maxPer then (u, d) :: q
  else
    match q with
    | [] => (u, d) :: q
    | h :: t =>
      let m := heapMin h t
      if m.1 < u then (u, d) :: (h :: t).erase m else q

/-- One streaming pass: fold the reservoir update over the matched objects'
`(key, payload)` pairs, starting from the empty heap. -/
def reservoirRun (maxPer : ℕ) (ops : List (ℚ × PlaceQueueData)) :
    List (ℚ × PlaceQueueData) :=
  ops.foldl (fun q ud => reservoirInsert maxPer ud.1 ud.2 q) []

theorem reservoirInsert_length {maxPer : ℕ} (hmax : 1 ≤ maxPer)
    {u : ℚ} {d : PlaceQueueData} {q : List (ℚ × PlaceQueueData)}
    (hq : q.length ≤ maxPer) :
    (reservoirInsert maxPer u d q).length ≤ maxPer := by
  unfold reservoirInsert
  by_cases hlen : q.length < maxPer
  · rw [if_pos hlen]
    simp only [List.length_cons]
    omega
  · rw [if_neg hlen]
    match q, hq, hlen with
    | [], hq, hlen => simp at hlen; omega
    | h :: t, hq, hlen =>
      simp only
      by_cases hrep : (heapMin h t).1 < u
      · rw [if_pos hrep]
        have hmem := heapMin_mem h t
        have := List.length_erase_of_mem hmem
        simp only [List.length_cons] at *
        omega
      · rw [if_neg hrep]
        exact hq

/-- Claim C5: starting from the empty heap, after any sequence of reservoir
insertions the heap holds at most `max_per_region ≥ 1` entries; moreover a
single insertion pushes when the heap is below capacity, and otherwise —
letting `m` be a heap element whose key is minimal — replaces `m` by the new
entry (as multisets) exactly when the fresh key `u` is strictly greater than
the minimum key, leaving the heap unchanged when `u ≤ min`. -/
theorem claim_C5 (maxPer : ℕ) (hmax : 1 ≤ maxPer)
    (ops : List (ℚ × PlaceQueueData)) :
    (reservoirRun maxPer ops).length ≤ maxPer ∧
    (∀ (u : ℚ) (d : PlaceQueueData) (q : List (ℚ × PlaceQueueData)),
      (q.length < maxPer → reservoirInsert maxPer u d q = (u, d) :: q) ∧
      (¬ q.length < maxPer → ∃ m ∈ q, (∀ e ∈ q, m.1 ≤ e.1) ∧
        (m.1 < u →
          (reservoirInsert maxPer u d q).Perm ((u, d) :: q.erase m)) ∧
        (¬ m.1 < u → reservoirInsert maxPer u d q = q))) := by
  constructor
  · unfold reservoirRun
    have hgen : ∀ (l : List (ℚ × PlaceQueueData))
        (q : List (ℚ × PlaceQueueData)), q.length ≤ maxPer →
        (l.foldl (fun q ud => reservoirInsert maxPer ud.1 ud.2 q) q).length
          ≤ maxPer := by
      intro l
      induction l with
      | nil => intro q hq; exact hq
      | cons x t ih =>
        intro q hq
        rw [List.foldl_cons]
        exact ih _ (reservoirInsert_length hmax hq)
    exact hgen ops [] (by simp)
  · intro u d q
    constructor
    · intro hlen
      unfold reservoirInsert
      rw [if_pos hlen]
    · intro hlen
      match q, hlen with
      | [], hlen => simp at hlen; omega
      | h :: t, hlen =>
        refine ⟨heapMin h t, heapMin_mem h t, ?_, ?_, ?_⟩
        · intro e he
          have := heapMin_min h t e he
          unfold entryLt at this
          push_neg at this
          exact this.1
        · intro hrep
          unfold reservoirInsert
          rw [if_neg hlen]
          simp only [if_pos hrep]
          exact List.Perm.refl _
        · intro hrep
          unfold reservoirInsert
          rw [if_neg hlen]
          simp only [if_neg hrep]

/-- Witness for C5 at a concrete input: capacity 1, two insertions with
increasing keys. -/
theorem claim_C5_witness :
    (reservoirRun 1 [(1/2, ⟨3, "a"⟩), (3/4, ⟨4, "b"⟩)]).length ≤ 1 ∧
    (∀ (u : ℚ) (d : PlaceQueueData) (q : List (ℚ × PlaceQueueData)),
      (q.length < 1 → reservoirInsert 1 u d q = (u, d) :: q) ∧
      (¬ q.length < 1 → ∃ m ∈ q, (∀ e ∈ q, m.1 ≤ e.1) ∧
        (m.1 < u →
          (reservoirInsert 1 u d q).Perm ((u, d) :: q.erase m)) ∧
        (¬ m.1 < u → reservoirInsert 1 u d q = q))) :=
  claim_C5 1 (by norm_num) [(1/2, ⟨3, "a"⟩), (3/4, ⟨4, "b"⟩)]

/-! ## Category matcher (`CategoryMatcher.cpp`)

OSM tag lists are ordered sequences of `(key, value)` pairs;
`osmium::TagList::get_value_by_key` yields the value of the first tag with
the given key, or null.  A `Category` carries its ordered rule list
(`tag_rules`, parsed from `"key=value"` strings). -/

/-- `CategoryMatcher::Category` (the `name`/`max_per_region` fields take no
part in matching). -/
structure Category where
  name : String
  max_per_region : ℤ
  tag_rules : List (String × String)

/-- `osmium::TagList::get_value_by_key`: first tag with the key, or null. -/
def get_value_by_key (tags : List (String × String)) (key : String) :
    Option String :=
  (tags.find? (fun t => decide (t.1 = key))).map (fun t => t.2)

/-- `CategoryMatcher::tag_matches_rule`: key present, then wildcard `"*"`
or exact value comparison. -/
def tag_matches_rule (tags : List (String × String)) (key value : String) :
    Bool :=
  match get_value_by_key tags key with
  | none => false
  | some tv => if value = "*" then true else decide (tv = value)

/-- Whether any rule of a category matches (the inner loop of
`match_category`). -/
def category_matches (tags : List (String × String)) (cat : Category) : Bool :=
  cat.tag_rules.any (fun r => tag_matches_rule tags r.1 r.2)

/-- The indexed loop of `CategoryMatcher::match_category`. -/
def match_category_aux (tags : List (String × String)) :
    List Category → ℤ → ℤ
  | [], _ => -1
  | c :: rest, i =>
    if category_matches tags c then i else match_category_aux tags rest (i + 1)

/-- `CategoryMatcher::match_category`: index of the first category with a
matching rule, `-1` when none. -/
def match_category (cats : List Category) (tags : List (String × String)) : ℤ :=
  match_category_aux tags cats 0

theorem match_category_aux_neg {tags : List (String × String)} :
    ∀ (cats : List Category) (k : ℤ), 0 ≤ k →
      (match_category_aux tags cats k = -1 ↔
        ∀ c ∈ cats, category_matches tags c = false) := by
  intro cats
  induction cats with
  | nil =>
    intro k _
    simp [match_category_aux]
  | cons c rest ih =>
    intro k hk
    unfold match_category_aux
    by_cases hc : category_matches tags c
    · rw [if_pos hc]
      constructor
      · intro h
        omega
      · intro h
        exact absurd hc (by simp [h c (List.mem_cons_self _ _)])
    · rw [if_neg hc]
      rw [ih (k + 1) (by omega)]
      constructor
      · intro h c' hc'
        rcases List.mem_cons.mp hc' with rfl | hc''
        · exact Bool.eq_false_iff.mpr hc
        · exact h c' hc''
      · intro h c' hc'
        exact h c' (List.mem_cons_of_mem _ hc')

theorem match_category_aux_found {tags : List (String × String)} :
    ∀ (cats : List Category) (k : ℤ) (i : ℕ) (hi : i < cats.length),
      category_matches tags (cats.get ⟨i, hi⟩) = true →
      (∀ j (hj : j < cats.length), j < i →
        category_matches tags (cats.get ⟨j, hj⟩) = false) →
      match_category_aux tags cats k = k + i := by
  intro cats
  induction cats with
  | nil =>
    intro k i hi
    simp at hi
  | cons c rest ih =>
    intro k i hi hmatch hbefore
    unfold match_category_aux
    match i, hi, hmatch, hbefore with
    | 0, hi, hmatch, hbefore =>
      simp only [List.get] at hmatch
      rw [if_pos hmatch]
      omega
    | i + 1, hi, hmatch, hbefore =>
      have hc : category_matches tags c = false := by
        have := hbefore 0 (by simp) (by omega)
        simpa using this
      rw [if_neg (by simp [hc])]
      have := ih (k + 1) i (by simpa using hi)
        (by simpa using hmatch)
        (by
          intro j hj hji
          have := hbefore (j + 1) (by simpa using hj) (by omega)
          simpa using this)
      rw [this]
      push_cast
      ring

theorem match_category_aux_spec {tags : List (String × String)} :
    ∀ (cats : List Category) (k : ℤ), 0 ≤ k →
      match_category_aux tags cats k = -1 ∨
      ∃ i : ℕ, ∃ hi : i < cats.length,
        match_category_aux tags cats k = k + i ∧
        category_matches tags (cats.get ⟨i, hi⟩) = true ∧
        ∀ j (hj : j < cats.length), j < i →
          category_matches tags (cats.get ⟨j, hj⟩) = false := by
  intro cats
  induction cats with
  | nil =>
    intro k _
    exact Or.inl rfl
  | cons c rest ih =>
    intro k hk
    unfold match_category_aux
    by_cases hc : category_matches tags c
    · rw [if_pos hc]
      refine Or.inr ⟨0, by simp, by omega, by simpa using hc, ?_⟩
      intro j hj hji
      omega
    · rw [if_neg hc]
      rcases ih (k + 1) (by omega) with h | ⟨i, hi, heq, hm, hb⟩
      · exact Or.inl h
      · refine Or.inr ⟨i + 1, by simpa using hi, by omega, by simpa using hm, ?_⟩
        intro j hj hji
        match j, hj, hji with
        | 0, hj, hji => simpa using Bool.eq_false_iff.mpr hc
        | j + 1, hj, hji =>
          have := hb j (by simpa using hj) (by omega)
          simpa using this

theorem category_matches_iff {tags : List (String × String)} {c : Category} :
    category_matches tags c = true ↔
      ∃ r ∈ c.tag_rules, ∃ v, get_value_by_key tags r.1 = some v ∧
        (r.2 = "*" ∨ v = r.2) := by
  unfold category_matches
  rw [List.any_eq_true]
  constructor
  · rintro ⟨r, hr, hm⟩
    refine ⟨r, hr, ?_⟩
    unfold tag_matches_rule at hm
    rcases hv : get_value_by_key tags r.1 with _ | v
    · rw [hv] at hm
      simp at hm
    · rw [hv] at hm
      simp only at hm
      refine ⟨v, rfl, ?_⟩
      by_cases hw : r.2 = "*"
      · exact Or.inl hw
      · rw [if_neg hw] at hm
        exact Or.inr (of_decide_eq_true hm)
  · rintro ⟨r, hr, v, hv, hcase⟩
    refine ⟨r, hr, ?_⟩
    unfold tag_matches_rule
    rw [hv]
    simp only
    rcases hcase with hw | hex
    · rw [if_pos hw]
    · by_cases hw : r.2 = "*"
      · rw [if_pos hw]
      · rw [if_neg hw]
        exact decide_eq_true hex

/-- Claim C8: `match_category` returns `-1` iff no category has a rule whose
key is present with the exact value or the `"*"` wildcard; otherwise it
returns the index of the **first** such category (every earlier category has
all rules failing), and a category matches iff **some** of its rules has its
key present on the object with the tag value equal to the rule value or the
rule value `"*"`. -/
theorem claim_C8 (cats : List Category) (tags : List (String × String)) :
    (match_category cats tags = -1 ↔
      ∀ c ∈ cats, category_matches tags c = false) ∧
    (match_category cats tags = -1 ∨
      ∃ i : ℕ, ∃ hi : i < cats.length,
        match_category cats tags = i ∧
        category_matches tags (cats.get ⟨i, hi⟩) = true ∧
        ∀ j (hj : j < cats.length), j < i →
          category_matches tags (cats.get ⟨j, hj⟩) = false) ∧
    (∀ c ∈ cats, category_matches tags c = true ↔
      ∃ r ∈ c.tag_rules, ∃ v, get_value_by_key tags r.1 = some v ∧
        (r.2 = "*" ∨ v = r.2)) := by
  refine ⟨match_category_aux_neg cats 0 (le_refl 0), ?_, fun c _ => category_matches_iff⟩
  rcases @match_category_aux_spec tags cats 0 (le_refl 0) with h | ⟨i, hi, heq, hm, hb⟩
  · exact Or.inl h
  · refine Or.inr ⟨i, hi, ?_, hm, hb⟩
    unfold match_category
    omega

/-- Witness for C8 at a concrete input: one category `bar` with rule
`amenity=bar`, matched against an object tagged `amenity=bar`. -/
theorem claim_C8_witness :
    (match_category [⟨"bar", 2, [("amenity", "bar")]⟩] [("amenity", "bar")] = -1 ↔
      ∀ c ∈ [(⟨"bar", 2, [("amenity", "bar")]⟩ : Category)],
        category_matches [("amenity", "bar")] c = false) ∧
    (match_category [⟨"bar", 2, [("amenity", "bar")]⟩] [("amenity", "bar")] = -1 ∨
      ∃ i : ℕ, ∃ hi : i < [(⟨"bar", 2, [("amenity", "bar")]⟩ : Category)].length,
        match_category [⟨"bar", 2, [("amenity", "bar")]⟩] [("amenity", "bar")] = i ∧
        category_matches [("amenity", "bar")]
          ([(⟨"bar", 2, [("amenity", "bar")]⟩ : Category)].get ⟨i, hi⟩) = true ∧
        ∀ j (hj : j < [(⟨"bar", 2, [("amenity", "bar")]⟩ : Category)].length),
          j < i → category_matches [("amenity", "bar")]
            ([(⟨"bar", 2, [("amenity", "bar")]⟩ : Category)].get ⟨j, hj⟩) = false) ∧
    (∀ c ∈ [(⟨"bar", 2, [("amenity", "bar")]⟩ : Category)],
      category_matches [("amenity", "bar")] c = true ↔
        ∃ r ∈ c.tag_rules, ∃ v,
          get_value_by_key [("amenity", "bar")] r.1 = some v ∧
          (r.2 = "*" ∨ v = r.2)) :=
  claim_C8 [⟨"bar", 2, [("amenity", "bar")]⟩] [("amenity", "bar")]

/-! ## Shortest-path queries from coordinates (`RoutingEngine.cpp`)

`computeShortestPathFromCoordinates` snaps both endpoints via
`findNearestNode` (RoutingKit's `GeoPositionToNode`, an external library,
modelled as `snap : ℝ × ℝ → Option ℕ` with `none` for
`RoutingKit::invalid_id`), computes the two walking legs with
`haversineDistance` and the 6 km/h ≈ 1.67 m/s walking speed, and either
returns the single-node special case or delegates to `computeShortestPath`
(the CH query, external, modelled as `chPath : ℕ → ℕ → RoutingResultM`).
`static_cast<unsigned>` of the nonnegative doubles is `⌊·⌋.toNat`. -/

/-- `static_cast<unsigned>` of a nonnegative double. -/
noncomputable def floorNatR (x : ℝ) : ℕ := (⌊x⌋).toNat

/-- `RoutingResult` (the fields the claims touch; `total_travel_time_ms` and
`total_geo_distance_m` are the `unsigned` totals). -/
structure RoutingResultM where
  success : Bool
  time_ms : ℕ
  dist_m : ℕ
  node_path : List ℕ
  arc_path : List ℕ
  start_walking_distance : ℝ
  end_walking_distance : ℝ
  start_lat : ℝ
  start_lon : ℝ
  end_lat : ℝ
  end_lon : ℝ

/-- `RoutingKit::inf_weight`. -/
def inf_weight : ℕ := 2147483647

/-- The failure result of `computeShortestPathFromCoordinates` when a snap
misses. -/
noncomputable def spFailure (flat flon tlat tlon : ℝ) : RoutingResultM :=
  ⟨false, inf_weight, inf_weight, [], [], 0, 0, flat, flon, tlat, tlon⟩

/-- `RoutingEngine::computeShortestPathFromCoordinates`, translated branch by
branch. -/
noncomputable def computeSPFromCoords (snap : ℝ × ℝ → Option ℕ)
    (nodeLat nodeLon : ℕ → ℝ) (chPath : ℕ → ℕ → RoutingResultM)
    (flat flon tlat tlon : ℝ) : RoutingResultM :=
  match snap (flat, flon), snap (tlat, tlon) with
  | some fn, some tn =>
    let d1 := haversine_m flat flon (nodeLat fn) (nodeLon fn)
    let d2 := haversine_m tlat tlon (nodeLat tn) (nodeLon tn)
    let t1 := floorNatR (d1 * 1000 / 1.67)
    let t2 := floorNatR (d2 * 1000 / 1.67)
    if fn = tn then
      ⟨true, t1 + t2, floorNatR (d1 + d2), [fn], [], d1, d2,
        flat, flon, tlat, tlon⟩
    else
      let nr := chPath fn tn
      if nr.success = false then nr
      else
        { nr with
          time_ms := nr.time_ms + (t1 + t2),
          dist_m := nr.dist_m + floorNatR (d1 + d2),
          start_walking_distance := d1, end_walking_distance := d2,
          start_lat := flat, start_lon := flon,
          end_lat := tlat, end_lon := tlon }
  | _, _ => spFailure flat flon tlat tlon

/-- A client-visible route point (`RoutePoint`); `node_id = none` stands for
`RoutingKit::invalid_id`. -/
structure RoutePointM where
  lat : ℝ
  lon : ℝ
  node_id : Option ℕ
  time_ms : ℕ
  distance_m : ℕ
  max_speed_kmh : ℕ
  is_walking_segment : Bool

/-- Effective arc speed with the optional `max_speed` cap. -/
def effArcSpeed (way way_speed : ℕ → ℕ) (maxS : Option ℕ) (arc : ℕ) : ℕ :=
  match maxS with
  | none => way_speed (way arc)
  | some ms => min (way_speed (way arc)) ms

/-- Per-arc travel time in ms: `(dist · 3600 · 1000) / (speed · 1000)` when
the effective speed is positive, else 0. -/
def arcTimeMs (way way_speed geo_distance : ℕ → ℕ) (maxS : Option ℕ)
    (arc : ℕ) : ℕ :=
  let eff := effArcSpeed way way_speed maxS arc
  if 0 < eff then (geo_distance arc * 3600 * 1000) / (eff * 1000) else 0

/-- `RoutingEngine::processPathIntoPoints`, translated branch by branch:
optional leading walking record, then the single-node special case or the
cumulative arc walk, then the optional trailing walking record. -/
noncomputable def processPathIntoPoints (nodeLat nodeLon : ℕ → ℝ)
    (way way_speed geo_distance : ℕ → ℕ) (r : RoutingResultM)
    (maxS : Option ℕ) : List RoutePointM :=
  if r.success = false ∨ r.node_path = [] then []
  else
    let hasStart := 0 < r.start_walking_distance
    let hasEnd := 0 < r.end_walking_distance
    let startPts : List RoutePointM :=
      if hasStart then [⟨r.start_lat, r.start_lon, none, 0, 0, 6, true⟩] else []
    match r.node_path with
    | [n] =>
      let nodeTime := if hasStart then
        floorNatR (r.start_walking_distance * 1000 / 1.67) else 0
      let nodeDist := if hasStart then
        floorNatR r.start_walking_distance else 0
      let nodePt : RoutePointM :=
        ⟨nodeLat n, nodeLon n, some n, nodeTime, nodeDist, 6, false⟩
      let endPts : List RoutePointM :=
        if hasEnd then
          [⟨r.end_lat, r.end_lon, none,
            nodeTime + floorNatR (r.end_walking_distance * 1000 / 1.67),
            nodeDist + floorNatR r.end_walking_distance, 6, true⟩]
        else []
      startPts ++ [nodePt] ++ endPts
    | _ =>
      let swt := if hasStart then
        floorNatR (r.start_walking_distance * 1000 / 1.67) else 0
      let swd := if hasStart then floorNatR r.start_walking_distance else 0
      let cum := r.arc_path.scanl
        (fun td arc => (td.1 + arcTimeMs way way_speed geo_distance maxS arc,
          td.2 + geo_distance arc)) (swt, swd)
      let nodePts := (List.range r.node_path.length).map (fun i =>
        (⟨nodeLat (r.node_path.getD i 0), nodeLon (r.node_path.getD i 0),
          some (r.node_path.getD i 0),
          (cum.getD i (0, 0)).1, (cum.getD i (0, 0)).2,
          (if i = 0 then (if hasStart then 6 else 0)
            else effArcSpeed way way_speed maxS (r.arc_path.getD (i - 1) 0)),
          false⟩ : RoutePointM))
      let endPts : List RoutePointM :=
        if hasEnd then
          [⟨r.end_lat, r.end_lon, none,
            (cum.getD (r.node_path.length - 1) (0, 0)).1 +
              floorNatR (r.end_walking_distance * 1000 / 1.67),
            (cum.getD (r.node_path.length - 1) (0, 0)).2 +
              floorNatR r.end_walking_distance, 6, true⟩]
        else []
      startPts ++ nodePts ++ endPts

theorem floorNatR_ge_one {x : ℝ} (hx : 1 ≤ x) : 1 ≤ floorNatR x := by
  unfold floorNatR
  have : (1 : ℤ) ≤ ⌊x⌋ := by
    rw [Int.le_floor]
    exact_mod_cast hx
  omega

/-- Claim C6, counterexample to the claim as stated.  One graph node at the
origin; the query coordinate `(0°, 0.001°)` (identical `from` and `to`) snaps
to it.  The code succeeds with a single-node path, but `travel_time_ms` is
`2·⌊haversine·1000/1.67⌋ ≈ 133 s`, not 0: the two walking legs from the
coordinate to the snapped node (≈111 m each) are charged.  This refutes
`travel_time_seconds = 0` (and the "zero-length walking endpoint records"). -/
theorem claim_C6_counterexample :
    (computeSPFromCoords (fun _ => some 0) (fun _ => 0) (fun _ => 0)
      (fun _ _ => spFailure 0 0 0 0) 0 (1/1000) 0 (1/1000)).success = true ∧
    (computeSPFromCoords (fun _ => some 0) (fun _ => 0) (fun _ => 0)
      (fun _ _ => spFailure 0 0 0 0) 0 (1/1000) 0 (1/1000)).node_path = [0] ∧
    (computeSPFromCoords (fun _ => some 0) (fun _ => 0) (fun _ => 0)
      (fun _ _ => spFailure 0 0 0 0) 0 (1/1000) 0 (1/1000)).time_ms ≠ 0 := by
  have hd : haversine_m 0 (1/1000) 0 0 = 6371000 * ((1/1000) * π / 180) := by
    rw [haversine_m_comm]
    have := haversine_m_equator (l := 0) (d := 1/1000) (by norm_num) (by norm_num)
    simpa using this
  have hdge : (1 : ℝ) ≤ haversine_m 0 (1/1000) 0 0 * 1000 / 1.67 := by
    rw [hd]
    have hpi := Real.pi_gt_three
    rw [le_div_iff₀ (by norm_num)]
    nlinarith
  have ht : 1 ≤ floorNatR (haversine_m 0 (1/1000) 0 0 * 1000 / 1.67) :=
    floorNatR_ge_one hdge
  have hr : computeSPFromCoords (fun _ => some 0) (fun _ => 0) (fun _ => 0)
      (fun _ _ => spFailure 0 0 0 0) 0 (1/1000) 0 (1/1000)
      = ⟨true,
        floorNatR (haversine_m 0 (1/1000) 0 0 * 1000 / 1.67)
          + floorNatR (haversine_m 0 (1/1000) 0 0 * 1000 / 1.67),
        floorNatR (haversine_m 0 (1/1000) 0 0 + haversine_m 0 (1/1000) 0 0),
        [0], [], haversine_m 0 (1/1000) 0 0, haversine_m 0 (1/1000) 0 0,
        0, 1/1000, 0, 1/1000⟩ := by
    unfold computeSPFromCoords
    simp
  rw [hr]
  refine ⟨rfl, rfl, ?_⟩
  show floorNatR (haversine_m 0 (1/1000) 0 0 * 1000 / 1.67)
    + floorNatR (haversine_m 0 (1/1000) 0 0 * 1000 / 1.67) ≠ 0
  omega

/-- Claim C6 (amended): a query whose `from` and `to` coordinates are the
identical coordinate `c` snapped to node `n` succeeds with the single-node
path `[n]` and no arcs, but its travel time is the two walking legs at
6 km/h — `2·⌊d·1000/1.67⌋ ms` where `d` is the haversine distance from `c`
to `n`'s location — and its distance is `⌊d + d⌋` meters (both zero when `c`
is exactly at the node's location); the emitted path carries the start
walking record, the node record with the walking leg's cumulative
time/distance, and the end walking record at twice those values exactly when
`d > 0` (the walking records are not zero-length). -/
theorem claim_C6_amended (snap : ℝ × ℝ → Option ℕ) (nodeLat nodeLon : ℕ → ℝ)
    (chPath : ℕ → ℕ → RoutingResultM) (clat clon : ℝ) (n : ℕ)
    (hsnap : snap (clat, clon) = some n) :
    (computeSPFromCoords snap nodeLat nodeLon chPath clat clon clat clon).success
        = true ∧
    (computeSPFromCoords snap nodeLat nodeLon chPath clat clon clat clon).node_path
        = [n] ∧
    (computeSPFromCoords snap nodeLat nodeLon chPath clat clon clat clon).arc_path
        = [] ∧
    (computeSPFromCoords snap nodeLat nodeLon chPath clat clon clat clon).time_ms
        = 2 * floorNatR (haversine_m clat clon (nodeLat n) (nodeLon n)
            * 1000 / 1.67) ∧
    (computeSPFromCoords snap nodeLat nodeLon chPath clat clon clat clon).dist_m
        = floorNatR (haversine_m clat clon (nodeLat n) (nodeLon n)
            + haversine_m clat clon (nodeLat n) (nodeLon n)) ∧
    (∀ (way way_speed geo_distance : ℕ → ℕ) (maxS : Option ℕ),
      processPathIntoPoints nodeLat nodeLon way way_speed geo_distance
        (computeSPFromCoords snap nodeLat nodeLon chPath clat clon clat clon)
        maxS =
      (if 0 < haversine_m clat clon (nodeLat n) (nodeLon n) then
        [⟨clat, clon, none, 0, 0, 6, true⟩] else []) ++
      [⟨nodeLat n, nodeLon n, some n,
        (if 0 < haversine_m clat clon (nodeLat n) (nodeLon n) then
          floorNatR (haversine_m clat clon (nodeLat n) (nodeLon n)
            * 1000 / 1.67) else 0),
        (if 0 < haversine_m clat clon (nodeLat n) (nodeLon n) then
          floorNatR (haversine_m clat clon (nodeLat n) (nodeLon n)) else 0),
        6, false⟩] ++
      (if 0 < haversine_m clat clon (nodeLat n) (nodeLon n) then
        [⟨clat, clon, none,
          (if 0 < haversine_m clat clon (nodeLat n) (nodeLon n) then
            floorNatR (haversine_m clat clon (nodeLat n) (nodeLon n)
              * 1000 / 1.67) else 0) +
            floorNatR (haversine_m clat clon (nodeLat n) (nodeLon n)
              * 1000 / 1.67),
          (if 0 < haversine_m clat clon (nodeLat n) (nodeLon n) then
            floorNatR (haversine_m clat clon (nodeLat n) (nodeLon n)) else 0) +
            floorNatR (haversine_m clat clon (nodeLat n) (nodeLon n)),
          6, true⟩] else [])) := by
  have hr : computeSPFromCoords snap nodeLat nodeLon chPath clat clon clat clon
      = ⟨true,
        floorNatR (haversine_m clat clon (nodeLat n) (nodeLon n) * 1000 / 1.67)
          + floorNatR (haversine_m clat clon (nodeLat n) (nodeLon n)
            * 1000 / 1.67),
        floorNatR (haversine_m clat clon (nodeLat n) (nodeLon n)
          + haversine_m clat clon (nodeLat n) (nodeLon n)),
        [n], [],
        haversine_m clat clon (nodeLat n) (nodeLon n),
        haversine_m clat clon (nodeLat n) (nodeLon n),
        clat, clon, clat, clon⟩ := by
    unfold computeSPFromCoords
    rw [hsnap]
    simp
  rw [hr]
  refine ⟨rfl, rfl, rfl, by simp only; omega, rfl, ?_⟩
  intro way way_speed geo_distance maxS
  unfold processPathIntoPoints
  simp only
  rw [if_neg (by simp)]

/-- Witness for C6 (amended) at a concrete input: a single node at the
origin, query coordinate exactly at the node. -/
theorem claim_C6_witness :
    (computeSPFromCoords (fun _ => some 0) (fun _ => 0) (fun _ => 0)
      (fun _ _ => spFailure 0 0 0 0) 0 0 0 0).success = true ∧
    (computeSPFromCoords (fun _ => some 0) (fun _ => 0) (fun _ => 0)
      (fun _ _ => spFailure 0 0 0 0) 0 0 0 0).node_path = [0] ∧
    (computeSPFromCoords (fun _ => some 0) (fun _ => 0) (fun _ => 0)
      (fun _ _ => spFailure 0 0 0 0) 0 0 0 0).arc_path = [] ∧
    (computeSPFromCoords (fun _ => some 0) (fun _ => 0) (fun _ => 0)
      (fun _ _ => spFailure 0 0 0 0) 0 0 0 0).time_ms
        = 2 * floorNatR (haversine_m 0 0 ((fun _ : ℕ => (0 : ℝ)) 0)
            ((fun _ : ℕ => (0 : ℝ)) 0) * 1000 / 1.67) ∧
    (computeSPFromCoords (fun _ => some 0) (fun _ => 0) (fun _ => 0)
      (fun _ _ => spFailure 0 0 0 0) 0 0 0 0).dist_m
        = floorNatR (haversine_m 0 0 ((fun _ : ℕ => (0 : ℝ)) 0)
            ((fun _ : ℕ => (0 : ℝ)) 0)
          + haversine_m 0 0 ((fun _ : ℕ => (0 : ℝ)) 0)
            ((fun _ : ℕ => (0 : ℝ)) 0)) ∧
    (∀ (way way_speed geo_distance : ℕ → ℕ) (maxS : Option ℕ),
      processPathIntoPoints (fun _ => 0) (fun _ => 0) way way_speed geo_distance
        (computeSPFromCoords (fun _ => some 0) (fun _ => 0) (fun _ => 0)
          (fun _ _ => spFailure 0 0 0 0) 0 0 0 0) maxS =
      (if 0 < haversine_m 0 0 ((fun _ : ℕ => (0 : ℝ)) 0)
          ((fun _ : ℕ => (0 : ℝ)) 0) then
        [⟨0, 0, none, 0, 0, 6, true⟩] else []) ++
      [⟨(fun _ : ℕ => (0 : ℝ)) 0, (fun _ : ℕ => (0 : ℝ)) 0, some 0,
        (if 0 < haversine_m 0 0 ((fun _ : ℕ => (0 : ℝ)) 0)
            ((fun _ : ℕ => (0 : ℝ)) 0) then
          floorNatR (haversine_m 0 0 ((fun _ : ℕ => (0 : ℝ)) 0)
            ((fun _ : ℕ => (0 : ℝ)) 0) * 1000 / 1.67) else 0),
        (if 0 < haversine_m 0 0 ((fun _ : ℕ => (0 : ℝ)) 0)
            ((fun _ : ℕ => (0 : ℝ)) 0) then
          floorNatR (haversine_m 0 0 ((fun _ : ℕ => (0 : ℝ)) 0)
            ((fun _ : ℕ => (0 : ℝ)) 0)) else 0),
        6, false⟩] ++
      (if 0 < haversine_m 0 0 ((fun _ : ℕ => (0 : ℝ)) 0)
          ((fun _ : ℕ => (0 : ℝ)) 0) then
        [⟨0, 0, none,
          (if 0 < haversine_m 0 0 ((fun _ : ℕ => (0 : ℝ)) 0)
              ((fun _ : ℕ => (0 : ℝ)) 0) then
            floorNatR (haversine_m 0 0 ((fun _ : ℕ => (0 : ℝ)) 0)
              ((fun _ : ℕ => (0 : ℝ)) 0) * 1000 / 1.67) else 0) +
            floorNatR (haversine_m 0 0 ((fun _ : ℕ => (0 : ℝ)) 0)
              ((fun _ : ℕ => (0 : ℝ)) 0) * 1000 / 1.67),
          (if 0 < haversine_m 0 0 ((fun _ : ℕ => (0 : ℝ)) 0)
              ((fun _ : ℕ => (0 : ℝ)) 0) then
            floorNatR (haversine_m 0 0 ((fun _ : ℕ => (0 : ℝ)) 0)
              ((fun _ : ℕ => (0 : ℝ)) 0)) else 0) +
            floorNatR (haversine_m 0 0 ((fun _ : ℕ => (0 : ℝ)) 0)
              ((fun _ : ℕ => (0 : ℝ)) 0)),
          6, true⟩] else [])) :=
  claim_C6_amended (fun _ => some 0) (fun _ => 0) (fun _ => 0)
    (fun _ _ => spFailure 0 0 0 0) 0 0 0 rfl

/-! ## Complete-trip combination (`ApiHandlers::handleCompleteJobRoute`)

After both legs succeed (and any `max_speed` recalculation has been applied
to them), the handler combines them: total distance is the plain sum, total
time is `static_cast<unsigned>((t1 + t2) · speed_multiplier)`, leg-1 points
get the multiplier applied to their times, and leg-2 points are offset by
leg 1's final cumulative values (time offset after the multiplier).  The leg
results are taken as inputs — they are whatever the engine produced.
`speed_multiplier` is a parsed double, hence an exact rational. -/

/-- `static_cast<unsigned>` of a nonnegative rational. -/
def floorNatQ (x : ℚ) : ℕ := (⌊x⌋).toNat

/-- A leg as the handler sees it after the engine calls: the totals and the
processed route points, each as its `(cumulative time_ms, cumulative
distance_m)` pair. -/
structure LegResult where
  time_ms : ℕ
  dist_m : ℕ
  points : List (ℕ × ℕ)

/-- The combination block of `handleCompleteJobRoute` for two successful
legs: `(total_time_ms, total_dist_m, combined points)`. -/
def combineJobRoute (leg1 leg2 : LegResult) (m : ℚ) : ℕ × ℕ × List (ℕ × ℕ) :=
  let total_dist := leg1.dist_m + leg2.dist_m
  let total_time := floorNatQ (((leg1.time_ms + leg2.time_ms : ℕ) : ℚ) * m)
  let leg1_final_time := (leg1.points.getLast?).elim 0 (fun p => p.1)
  let leg1_final_dist := (leg1.points.getLast?).elim 0 (fun p => p.2)
  let pts1 := leg1.points.map (fun p => (floorNatQ ((p.1 : ℚ) * m), p.2))
  let off := floorNatQ ((leg1_final_time : ℚ) * m)
  let pts2 := leg2.points.map
    (fun p => (off + floorNatQ ((p.1 : ℚ) * m), leg1_final_dist + p.2))
  (total_time, total_dist, pts1 ++ pts2)

theorem floorNatQ_natCast (k : ℕ) : floorNatQ (k : ℚ) = k := by
  unfold floorNatQ
  rw [Int.floor_natCast]
  rfl

/-- Claim C7, counterexample to the claim as stated.  With leg times 1 ms
and 0 ms and `speed_multiplier = 1/2`, the combined travel time is
`static_cast<unsigned>(1 · 0.5) = 0 ms`, not the claimed
`(leg1 + leg2) × multiplier = 0.5 ms`: the product is truncated to a whole
number of milliseconds. -/
theorem claim_C7_counterexample :
    ((combineJobRoute ⟨1, 0, []⟩ ⟨0, 0, []⟩ (1/2)).1 : ℚ)
      ≠ (((1 : ℕ) + (0 : ℕ) : ℕ) : ℚ) * (1/2) := by
  have h : (combineJobRoute ⟨1, 0, []⟩ ⟨0, 0, []⟩ (1/2)).1 = 0 := by
    show floorNatQ ((((1 : ℕ) + (0 : ℕ) : ℕ) : ℚ) * (1/2)) = 0
    unfold floorNatQ
    have : (((1 : ℕ) + (0 : ℕ) : ℕ) : ℚ) * (1/2) = 1/2 := by norm_num
    rw [this]
    have hf : ⌊(1/2 : ℚ)⌋ = 0 := by
      rw [Int.floor_eq_zero_iff]
      constructor <;> norm_num
    rw [hf]
    rfl
  rw [h]
  norm_num

/-- Claim C7 (amended): for any two successful legs and multiplier `m > 0`,
the combined travel time is `⌊(t1 + t2) · m⌋` ms — equal to `(t1 + t2) · m`
whenever that product is a whole number of ms, in particular for integer
multipliers such as the specified `2.0` — the combined distance is the plain
sum `d1 + d2`, unaffected by the multiplier, and the combined point list is
leg 1's points with the multiplier applied to their times followed by leg
2's points offset by leg 1's final cumulative values (the time offset taken
after the multiplier). -/
theorem claim_C7_amended (leg1 leg2 : LegResult) (m : ℚ) (_hm : 0 < m) :
    (combineJobRoute leg1 leg2 m).1
      = floorNatQ (((leg1.time_ms + leg2.time_ms : ℕ) : ℚ) * m) ∧
    (∀ k : ℕ, ((leg1.time_ms + leg2.time_ms : ℕ) : ℚ) * m = (k : ℚ) →
      (combineJobRoute leg1 leg2 m).1 = k) ∧
    (combineJobRoute leg1 leg2 m).2.1 = leg1.dist_m + leg2.dist_m ∧
    (∀ m' : ℚ, (combineJobRoute leg1 leg2 m').2.1
      = (combineJobRoute leg1 leg2 m).2.1) ∧
    (combineJobRoute leg1 leg2 m).2.2
      = leg1.points.map (fun p => (floorNatQ ((p.1 : ℚ) * m), p.2))
        ++ leg2.points.map (fun p =>
          (floorNatQ ((((leg1.points.getLast?).elim 0 (fun q => q.1) : ℕ) : ℚ)
              * m) + floorNatQ ((p.1 : ℚ) * m),
           (leg1.points.getLast?).elim 0 (fun q => q.2) + p.2)) := by
  refine ⟨rfl, ?_, rfl, fun m' => rfl, rfl⟩
  intro k hk
  show floorNatQ (((leg1.time_ms + leg2.time_ms : ℕ) : ℚ) * m) = k
  rw [hk, floorNatQ_natCast]

/-- Witness for C7 (amended) at a concrete input: leg times 3 ms and 4 ms,
one point per leg, multiplier 2. -/
theorem claim_C7_witness :
    (combineJobRoute ⟨3, 10, [(3, 10)]⟩ ⟨4, 20, [(4, 20)]⟩ 2).1
      = floorNatQ ((((3 : ℕ) + (4 : ℕ) : ℕ) : ℚ) * 2) ∧
    (∀ k : ℕ, (((3 : ℕ) + (4 : ℕ) : ℕ) : ℚ) * 2 = (k : ℚ) →
      (combineJobRoute ⟨3, 10, [(3, 10)]⟩ ⟨4, 20, [(4, 20)]⟩ 2).1 = k) ∧
    (combineJobRoute ⟨3, 10, [(3, 10)]⟩ ⟨4, 20, [(4, 20)]⟩ 2).2.1 = 10 + 20 ∧
    (∀ m' : ℚ, (combineJobRoute ⟨3, 10, [(3, 10)]⟩ ⟨4, 20, [(4, 20)]⟩ m').2.1
      = (combineJobRoute ⟨3, 10, [(3, 10)]⟩ ⟨4, 20, [(4, 20)]⟩ 2).2.1) ∧
    (combineJobRoute ⟨3, 10, [(3, 10)]⟩ ⟨4, 20, [(4, 20)]⟩ 2).2.2
      = [((3 : ℕ), (10 : ℕ))].map (fun p => (floorNatQ ((p.1 : ℚ) * 2), p.2))
        ++ [((4 : ℕ), (20 : ℕ))].map (fun p =>
          (floorNatQ (((([((3 : ℕ), (10 : ℕ))].getLast?).elim 0
              (fun q => q.1) : ℕ) : ℚ) * 2) + floorNatQ ((p.1 : ℚ) * 2),
           ([((3 : ℕ), (10 : ℕ))].getLast?).elim 0 (fun q => q.2) + p.2)) :=
  claim_C7_amended ⟨3, 10, [(3, 10)]⟩ ⟨4, 20, [(4, 20)]⟩ 2 (by norm_num)

/-! ## Union-find (`connect_components.cpp`, class `UnionFind`)

The C++ class keeps two hash maps `parent_` and `rank_` keyed by node id,
growing on demand inside `find_mutable`.  The maps are modelled as total
functions together with the explicit (finite) key set `dom`; `rank_` entries
absent from the map read as the default 0.  The `const` member `find` (used
by `compute_connected_components`) follows parent pointers without mutating;
`find_mutable` path-compresses; `unite` links by rank.  The recursions
terminate in C++ because union-by-rank keeps parent chains acyclic; here
they take the number of keys as explicit recursion fuel, which the chain
length never exceeds (ranks increase strictly along chains), so on every
state reachable from the empty structure the fuelled functions compute the
same values as the C++ code. -/

/-- Union-find state: `parent_`, `rank_`, and the key set of `parent_`. -/
structure UF where
  parent : ℤ → Option ℤ
  rank : ℤ → ℕ
  dom : Finset ℤ

/-- The initial, empty structure. -/
def UF.empty : UF := ⟨fun _ => none, fun _ => 0, ∅⟩

/-- Point update of a parent map. -/
def updP (f : ℤ → Option ℤ) (k v : ℤ) : ℤ → Option ℤ :=
  fun z => if z = k then some v else f z

/-- Point update of a rank map. -/
def updR (f : ℤ → ℕ) (k : ℤ) (v : ℕ) : ℤ → ℕ :=
  fun z => if z = k then v else f z

/-- The `const` `UnionFind::find`: follow parents (no mutation), returning
the argument itself when it is not a key. -/
def findAux (parent : ℤ → Option ℤ) : ℕ → ℤ → ℤ
  | 0, x => x
  | n + 1, x =>
    match parent x with
    | none => x
    | some p => if p = x then x else findAux parent n p

/-- `UnionFind::find` with sufficient fuel for any acyclic parent map over
`dom`. -/
def UF.find (s : UF) (x : ℤ) : ℤ := findAux s.parent (s.dom.card + 1) x

/-- `UnionFind::find_mutable`: creates a singleton entry for unknown ids,
otherwise finds the root and path-compresses, returning `parent_[x]` after
the update. -/
def UF.findM : ℕ → UF → ℤ → ℤ × UF
  | 0, s, x => (x, s)
  | n + 1, s, x =>
    match s.parent x with
    | none => (x, ⟨updP s.parent x x, updR s.rank x 0, insert x s.dom⟩)
    | some p =>
      if p = x then (x, s)
      else
        let r := UF.findM n s p
        (r.1, ⟨updP r.2.parent x r.1, r.2.rank, r.2.dom⟩)

/-- `find_mutable` with the fuel the current state needs. -/
def UF.findRootM (s : UF) (x : ℤ) : ℤ × UF := UF.findM (s.dom.card + 1) s x

/-- `UnionFind::unite`: two `find_mutable` calls, then union by rank
(equal ranks attach `root_y` below `root_x` and bump `root_x`'s rank). -/
def UF.unite (s : UF) (x y : ℤ) : UF :=
  let fx := s.findRootM x
  let fy := fx.2.findRootM y
  let s2 := fy.2
  if fx.1 = fy.1 then s2
  else if s2.rank fx.1 < s2.rank fy.1 then
    ⟨updP s2.parent fx.1 fy.1, s2.rank, s2.dom⟩
  else if s2.rank fy.1 < s2.rank fx.1 then
    ⟨updP s2.parent fy.1 fx.1, s2.rank, s2.dom⟩
  else
    ⟨updP s2.parent fy.1 fx.1, updR s2.rank fx.1 (s2.rank fx.1 + 1), s2.dom⟩

/-- Structural invariant of every reachable union-find state: the key set is
`dom`, parents stay inside `dom`, ranks strictly increase along proper
parent edges (whence acyclicity), and ids outside the map have the default
rank 0. -/
structure UF.Inv (s : UF) : Prop where
  mem_iff : ∀ z, z ∈ s.dom ↔ (s.parent z).isSome
  closed : ∀ z p, s.parent z = some p → p ∈ s.dom
  ranklt : ∀ z p, s.parent z = some p → p ≠ z → s.rank z < s.rank p
  rank_zero : ∀ z, z ∉ s.dom → s.rank z = 0

/-- One proper parent step. -/
def UF.Step (s : UF) (a b : ℤ) : Prop := s.parent a = some b ∧ b ≠ a

/-- Chain reachability along proper parent steps. -/
def UF.Reaches (s : UF) : ℤ → ℤ → Prop := Relation.ReflTransGen (s.Step)

/-- The termination measure of a chain start: how many keys have rank at
least the start's rank. -/
def UF.W (s : UF) (x : ℤ) : ℕ := (s.dom.filter (fun y => s.rank x ≤ s.rank y)).card

theorem UF.W_le_card (s : UF) (x : ℤ) : s.W x ≤ s.dom.card :=
  Finset.card_le_card (Finset.filter_subset _ _)

theorem UF.W_pos {s : UF} {x : ℤ} (hx : x ∈ s.dom) : 0 < s.W x := by
  apply Finset.card_pos.mpr
  exact ⟨x, Finset.mem_filter.mpr ⟨hx, by simp⟩⟩

theorem UF.W_step_lt {s : UF} (hInv : s.Inv) {x p : ℤ} (hx : x ∈ s.dom)
    (hp : s.parent x = some p) (hne : p ≠ x) : s.W p < s.W x := by
  have hrk : s.rank x < s.rank p := hInv.ranklt x p hp hne
  unfold UF.W
  have hsub : s.dom.filter (fun y => s.rank p ≤ s.rank y)
      ⊆ s.dom.filter (fun y => s.rank x ≤ s.rank y) := by
    intro y hy
    rw [Finset.mem_filter] at hy ⊢
    exact ⟨hy.1, le_trans (le_of_lt hrk) hy.2⟩
  apply Finset.card_lt_card
  rw [Finset.ssubset_iff_of_subset hsub]
  refine ⟨x, Finset.mem_filter.mpr ⟨hx, le_refl _⟩, ?_⟩
  intro hmem
  have := (Finset.mem_filter.mp hmem).2
  omega

theorem UF.find_not_mem {s : UF} (hInv : s.Inv) {x : ℤ} (hx : x ∉ s.dom) :
    s.find x = x := by
  have hnone : s.parent x = none := by
    rcases h : s.parent x with _ | p
    · rfl
    · exact absurd ((hInv.mem_iff x).mpr (by rw [h]; rfl)) hx
  simp only [UF.find, findAux, hnone]

theorem findAux_spec {s : UF} (hInv : s.Inv) :
    ∀ (fuel : ℕ) (x : ℤ), x ∈ s.dom → s.W x ≤ fuel →
      s.parent (findAux s.parent fuel x) = some (findAux s.parent fuel x) ∧
      findAux s.parent fuel x ∈ s.dom ∧
      s.Reaches x (findAux s.parent fuel x) := by
  intro fuel
  induction fuel with
  | zero =>
    intro x hx hW
    exact absurd hW (by have := UF.W_pos hx; omega)
  | succ n ih =>
    intro x hx hW
    obtain ⟨p, hp⟩ := Option.isSome_iff_exists.mp ((hInv.mem_iff x).mp hx)
    by_cases hpx : p = x
    · have hval : findAux s.parent (n + 1) x = x := by
        simp only [findAux, hp, if_pos hpx]
      rw [hval]
      exact ⟨by rw [hp, hpx], hx, Relation.ReflTransGen.refl⟩
    · have hval : findAux s.parent (n + 1) x = findAux s.parent n p := by
        simp only [findAux, hp, if_neg hpx]
      rw [hval]
      have hpd : p ∈ s.dom := hInv.closed x p hp
      have hWp : s.W p ≤ n := by
        have := UF.W_step_lt hInv hx hp hpx
        omega
      obtain ⟨h1, h2, h3⟩ := ih p hpd hWp
      exact ⟨h1, h2, Relation.ReflTransGen.head ⟨hp, hpx⟩ h3⟩

theorem findAux_fuel_eq {s : UF} (hInv : s.Inv) :
    ∀ (k fuel1 fuel2 : ℕ) (x : ℤ), x ∈ s.dom → s.W x ≤ k →
      k ≤ fuel1 → k ≤ fuel2 →
      findAux s.parent fuel1 x = findAux s.parent fuel2 x := by
  intro k
  induction k with
  | zero =>
    intro fuel1 fuel2 x hx hW _ _
    exact absurd hW (by have := UF.W_pos hx; omega)
  | succ n ih =>
    intro fuel1 fuel2 x hx hW h1 h2
    obtain ⟨a, rfl⟩ : ∃ a, fuel1 = a + 1 := ⟨fuel1 - 1, by omega⟩
    obtain ⟨b, rfl⟩ : ∃ b, fuel2 = b + 1 := ⟨fuel2 - 1, by omega⟩
    obtain ⟨p, hp⟩ := Option.isSome_iff_exists.mp ((hInv.mem_iff x).mp hx)
    by_cases hpx : p = x
    · simp only [findAux, hp, if_pos hpx]
    · have hv1 : findAux s.parent (a + 1) x = findAux s.parent a p := by
        simp only [findAux, hp, if_neg hpx]
      have hv2 : findAux s.parent (b + 1) x = findAux s.parent b p := by
        simp only [findAux, hp, if_neg hpx]
      rw [hv1, hv2]
      have hpd : p ∈ s.dom := hInv.closed x p hp
      have hWp : s.W p ≤ n := by
        have := UF.W_step_lt hInv hx hp hpx
        omega
      exact ih a b p hpd hWp (by omega) (by omega)

theorem UF.find_spec {s : UF} (hInv : s.Inv) {x : ℤ} (hx : x ∈ s.dom) :
    s.parent (s.find x) = some (s.find x) ∧ s.find x ∈ s.dom ∧
      s.Reaches x (s.find x) :=
  findAux_spec hInv (s.dom.card + 1) x hx
    (le_trans (UF.W_le_card s x) (by omega))

theorem UF.find_fix {s : UF} {r : ℤ} (hp : s.parent r = some r) :
    s.find r = r := by
  simp only [UF.find, findAux, hp, if_true, eq_self_iff_true]

theorem UF.find_parent {s : UF} (hInv : s.Inv) {x p : ℤ}
    (hp : s.parent x = some p) (hne : p ≠ x) : s.find x = s.find p := by
  have hx : x ∈ s.dom := (hInv.mem_iff x).mpr (by rw [hp]; rfl)
  have hpd : p ∈ s.dom := hInv.closed x p hp
  have hv : s.find x = findAux s.parent s.dom.card p := by
    simp only [UF.find, findAux, hp, if_neg hne]
  rw [hv]
  exact findAux_fuel_eq hInv (s.W p) s.dom.card (s.dom.card + 1) p hpd
    (le_refl _) (UF.W_le_card s p) (le_trans (UF.W_le_card s p) (by omega))

theorem UF.find_of_reaches {s : UF} (hInv : s.Inv) {x y : ℤ}
    (h : s.Reaches x y) : s.find x = s.find y := by
  induction h using Relation.ReflTransGen.head_induction_on with
  | refl => rfl
  | head hstep _ ih =>
    rw [UF.find_parent hInv hstep.1 hstep.2]
    exact ih

theorem UF.rank_le_of_reaches {s : UF} (hInv : s.Inv) {x y : ℤ}
    (h : s.Reaches x y) : s.rank x ≤ s.rank y := by
  induction h using Relation.ReflTransGen.head_induction_on with
  | refl => exact le_refl _
  | head hstep _ ih =>
    have := hInv.ranklt _ _ hstep.1 hstep.2
    omega

theorem UF.rank_lt_of_find_ne {s : UF} (hInv : s.Inv) {x : ℤ}
    (hx : x ∈ s.dom) (hne : s.find x ≠ x) : s.rank x < s.rank (s.find x) := by
  obtain ⟨_, _, hreach⟩ := UF.find_spec hInv hx
  rcases (Relation.ReflTransGen.cases_head hreach) with heq | ⟨b, hstep, hrest⟩
  · exact absurd heq.symm hne
  · have h1 := hInv.ranklt _ _ hstep.1 hstep.2
    have h2 := UF.rank_le_of_reaches hInv hrest
    omega

theorem UF.repoint_inv {s : UF} (hInv : s.Inv) {x : ℤ} (hx : x ∈ s.dom) :
    UF.Inv ⟨updP s.parent x (s.find x), s.rank, s.dom⟩ := by
  obtain ⟨hroot, hrdom, _⟩ := UF.find_spec hInv hx
  refine ⟨?_, ?_, ?_, hInv.rank_zero⟩
  · intro z
    by_cases hz : z = x
    · subst hz
      simp only [updP, eq_self_iff_true, if_true, Option.isSome_some]
      exact iff_of_true hx trivial
    · simp only [updP, if_neg hz]
      exact hInv.mem_iff z
  · intro z p hzp
    by_cases hz : z = x
    · subst hz
      simp only [updP, eq_self_iff_true, if_true, Option.some.injEq] at hzp
      rw [← hzp]
      exact hrdom
    · simp only [updP, if_neg hz] at hzp
      exact hInv.closed z p hzp
  · intro z p hzp hne
    by_cases hz : z = x
    · subst hz
      simp only [updP, eq_self_iff_true, if_true, Option.some.injEq] at hzp
      rw [← hzp]
      rw [← hzp] at hne
      exact UF.rank_lt_of_find_ne hInv hx hne
    · simp only [updP, if_neg hz] at hzp
      exact hInv.ranklt z p hzp hne

theorem UF.repoint_parent_root {s : UF} (hInv : s.Inv) {x : ℤ}
    (hx : x ∈ s.dom) :
    (⟨updP s.parent x (s.find x), s.rank, s.dom⟩ : UF).parent (s.find x) =
      some (s.find x) := by
  show updP s.parent x (s.find x) (s.find x) = some (s.find x)
  by_cases hfx : s.find x = x
  · simp only [updP, if_pos hfx]
  · simp only [updP, if_neg hfx]
    exact (UF.find_spec hInv hx).1

theorem UF.repoint_find {s : UF} (hInv : s.Inv) {x : ℤ} (hx : x ∈ s.dom)
    (z : ℤ) :
    UF.find ⟨updP s.parent x (s.find x), s.rank, s.dom⟩ z = s.find z := by
  have hInv2 := UF.repoint_inv hInv hx
  have main : ∀ n w, w ∈ s.dom → s.W w ≤ n →
      UF.find ⟨updP s.parent x (s.find x), s.rank, s.dom⟩ w = s.find w := by
    intro n
    induction n with
    | zero =>
      intro w hw hW
      exact absurd hW (by have := UF.W_pos hw; omega)
    | succ n ih =>
      intro w hw hW
      obtain ⟨p, hp⟩ := Option.isSome_iff_exists.mp ((hInv.mem_iff w).mp hw)
      by_cases hwx : w = x
      · subst hwx
        have htp : (⟨updP s.parent w (s.find w), s.rank, s.dom⟩ : UF).parent w =
            some (s.find w) := by
          show updP s.parent w (s.find w) w = some (s.find w)
          simp only [updP, eq_self_iff_true, if_true]
        by_cases hfw : s.find w = w
        · have htp2 : (⟨updP s.parent w (s.find w), s.rank, s.dom⟩ :
              UF).parent w = some w := htp.trans (congrArg some hfw)
          rw [UF.find_fix htp2, hfw]
        · rw [UF.find_parent hInv2 htp hfw]
          have hr : (⟨updP s.parent w (s.find w), s.rank, s.dom⟩ : UF).parent
              (s.find w) = some (s.find w) := UF.repoint_parent_root hInv hw
          exact UF.find_fix hr
      · have htp : (⟨updP s.parent x (s.find x), s.rank, s.dom⟩ : UF).parent w =
            some p := by
          show updP s.parent x (s.find x) w = some p
          simp only [updP, if_neg hwx]
          exact hp
        by_cases hpw : p = w
        · rw [hpw] at htp hp
          rw [UF.find_fix htp, UF.find_fix hp]
        · rw [UF.find_parent hInv2 htp hpw, UF.find_parent hInv hp hpw]
          have hpd : p ∈ s.dom := hInv.closed w p hp
          have hWp := UF.W_step_lt hInv hw hp hpw
          exact ih p hpd (by omega)
  by_cases hz : z ∈ s.dom
  · exact main (s.W z) z hz (le_refl _)
  · rw [UF.find_not_mem hInv2 hz, UF.find_not_mem hInv hz]

theorem UF.extend_inv {s : UF} (hInv : s.Inv) {x : ℤ} (hx : x ∉ s.dom) :
    UF.Inv ⟨updP s.parent x x, updR s.rank x 0, insert x s.dom⟩ := by
  refine ⟨?_, ?_, ?_, ?_⟩
  · intro z
    by_cases hz : z = x
    · subst hz
      simp only [updP, eq_self_iff_true, if_true, Option.isSome_some]
      exact iff_of_true (Finset.mem_insert_self z s.dom) trivial
    · simp only [updP, if_neg hz]
      rw [Finset.mem_insert]
      constructor
      · rintro (h | h)
        · exact absurd h hz
        · exact (hInv.mem_iff z).mp h
      · intro h
        exact Or.inr ((hInv.mem_iff z).mpr h)
  · intro z p hzp
    by_cases hz : z = x
    · subst hz
      simp only [updP, eq_self_iff_true, if_true, Option.some.injEq] at hzp
      rw [← hzp]
      exact Finset.mem_insert_self z s.dom
    · simp only [updP, if_neg hz] at hzp
      exact Finset.mem_insert_of_mem (hInv.closed z p hzp)
  · intro z p hzp hne
    by_cases hz : z = x
    · subst hz
      simp only [updP, eq_self_iff_true, if_true, Option.some.injEq] at hzp
      exact absurd hzp.symm hne
    · simp only [updP, if_neg hz] at hzp
      have hzd : z ∈ s.dom := (hInv.mem_iff z).mpr (by rw [hzp]; rfl)
      have hpd : p ∈ s.dom := hInv.closed z p hzp
      have hzx : z ≠ x := fun h => hx (h ▸ hzd)
      have hpx : p ≠ x := fun h => hx (h ▸ hpd)
      show updR s.rank x 0 z < updR s.rank x 0 p
      simp only [updR, if_neg hzx, if_neg hpx]
      exact hInv.ranklt z p hzp hne
  · intro z hz
    rw [Finset.mem_insert] at hz
    push_neg at hz
    show updR s.rank x 0 z = 0
    simp only [updR, if_neg hz.1]
    exact hInv.rank_zero z hz.2

theorem UF.extend_rank {s : UF} (hInv : s.Inv) {x : ℤ} (hx : x ∉ s.dom) :
    updR s.rank x 0 = s.rank := by
  funext z
  by_cases hz : z = x
  · subst hz
    simp only [updR, eq_self_iff_true, if_true]
    exact (hInv.rank_zero z hx).symm
  · simp only [updR, if_neg hz]

theorem UF.extend_find {s : UF} (hInv : s.Inv) {x : ℤ} (hx : x ∉ s.dom)
    (z : ℤ) :
    UF.find ⟨updP s.parent x x, updR s.rank x 0, insert x s.dom⟩ z =
      s.find z := by
  have hInv2 := UF.extend_inv hInv hx
  by_cases hzx : z = x
  · subst hzx
    have htp : (⟨updP s.parent z z, updR s.rank z 0, insert z s.dom⟩ :
        UF).parent z = some z := by
      show updP s.parent z z z = some z
      simp only [updP, eq_self_iff_true, if_true]
    rw [UF.find_fix htp, UF.find_not_mem hInv hx]
  · by_cases hzd : z ∈ s.dom
    · have main : ∀ n w, w ∈ s.dom → s.W w ≤ n →
          UF.find ⟨updP s.parent x x, updR s.rank x 0, insert x s.dom⟩ w =
            s.find w := by
        intro n
        induction n with
        | zero =>
          intro w hw hW
          exact absurd hW (by have := UF.W_pos hw; omega)
        | succ n ih =>
          intro w hw hW
          have hwx : w ≠ x := fun h => hx (h ▸ hw)
          obtain ⟨p, hp⟩ := Option.isSome_iff_exists.mp ((hInv.mem_iff w).mp hw)
          have htp : (⟨updP s.parent x x, updR s.rank x 0, insert x s.dom⟩ :
              UF).parent w = some p := by
            show updP s.parent x x w = some p
            simp only [updP, if_neg hwx]
            exact hp
          by_cases hpw : p = w
          · rw [hpw] at htp hp
            rw [UF.find_fix htp, UF.find_fix hp]
          · rw [UF.find_parent hInv2 htp hpw, UF.find_parent hInv hp hpw]
            have hpd : p ∈ s.dom := hInv.closed w p hp
            have hWp := UF.W_step_lt hInv hw hp hpw
            exact ih p hpd (by omega)
      exact main (s.W z) z hzd (le_refl _)
    · have hznd : z ∉ insert x s.dom := by
        rw [Finset.mem_insert]
        push_neg
        exact ⟨hzx, hzd⟩
      rw [UF.find_not_mem hInv2 hznd, UF.find_not_mem hInv hzd]

theorem UF.findM_spec {s : UF} (hInv : s.Inv) :
    ∀ (fuel : ℕ) (x : ℤ), 1 ≤ fuel → (x ∈ s.dom → s.W x ≤ fuel) →
      (UF.findM fuel s x).1 = s.find x ∧
      (UF.findM fuel s x).2.Inv ∧
      (UF.findM fuel s x).2.dom = insert x s.dom ∧
      (UF.findM fuel s x).2.rank = s.rank ∧
      (∀ z, (UF.findM fuel s x).2.find z = s.find z) ∧
      (UF.findM fuel s x).2.parent (s.find x) = some (s.find x) ∧
      (∀ z, s.parent z = some z → (UF.findM fuel s x).2.parent z = some z) := by
  intro fuel
  induction fuel with
  | zero =>
    intro x h1 _
    exact absurd h1 (by omega)
  | succ n ih =>
    intro x _ hWf
    rcases hp : s.parent x with _ | p
    · have hx0 : x ∉ s.dom := by
        intro hmem
        have hs := (hInv.mem_iff x).mp hmem
        rw [hp] at hs
        simp at hs
      have hval : UF.findM (n + 1) s x =
          (x, ⟨updP s.parent x x, updR s.rank x 0, insert x s.dom⟩) := by
        simp only [UF.findM, hp]
      have h1 : (UF.findM (n + 1) s x).1 = x := by rw [hval]
      have h2 : (UF.findM (n + 1) s x).2 =
          ⟨updP s.parent x x, updR s.rank x 0, insert x s.dom⟩ := by rw [hval]
      have hfx : s.find x = x := UF.find_not_mem hInv hx0
      refine ⟨?_, ?_, ?_, ?_, ?_, ?_, ?_⟩
      · rw [h1, hfx]
      · rw [h2]
        exact UF.extend_inv hInv hx0
      · rw [h2]
      · rw [h2]
        exact UF.extend_rank hInv hx0
      · intro z
        rw [h2]
        exact UF.extend_find hInv hx0 z
      · rw [h2, hfx]
        show updP s.parent x x x = some x
        simp only [updP, eq_self_iff_true, if_true]
      · intro z hz
        have hzd : z ∈ s.dom := (hInv.mem_iff z).mpr (by rw [hz]; rfl)
        have hzx : z ≠ x := fun h => hx0 (h ▸ hzd)
        rw [h2]
        show updP s.parent x x z = some z
        simp only [updP, if_neg hzx]
        exact hz
    · have hx : x ∈ s.dom := (hInv.mem_iff x).mpr (by rw [hp]; rfl)
      by_cases hpx : p = x
      · have hval : UF.findM (n + 1) s x = (x, s) := by
          simp only [UF.findM, hp, if_pos hpx]
        have h1 : (UF.findM (n + 1) s x).1 = x := by rw [hval]
        have h2 : (UF.findM (n + 1) s x).2 = s := by rw [hval]
        have hfx : s.find x = x := UF.find_fix (by rw [hp, hpx])
        refine ⟨?_, ?_, ?_, ?_, ?_, ?_, ?_⟩
        · rw [h1, hfx]
        · rw [h2]; exact hInv
        · rw [h2]
          exact (Finset.insert_eq_self.mpr hx).symm
        · rw [h2]
        · intro z
          rw [h2]
        · rw [h2, hfx, hp, hpx]
        · intro z hz
          rw [h2]
          exact hz
      · have hval : UF.findM (n + 1) s x =
            ((UF.findM n s p).1,
             ⟨updP (UF.findM n s p).2.parent x (UF.findM n s p).1,
              (UF.findM n s p).2.rank, (UF.findM n s p).2.dom⟩) := by
          simp only [UF.findM, hp, if_neg hpx]
        have h1 : (UF.findM (n + 1) s x).1 = (UF.findM n s p).1 := by rw [hval]
        have h2 : (UF.findM (n + 1) s x).2 =
            ⟨updP (UF.findM n s p).2.parent x (UF.findM n s p).1,
             (UF.findM n s p).2.rank, (UF.findM n s p).2.dom⟩ := by rw [hval]
        have hpd : p ∈ s.dom := hInv.closed x p hp
        have hWlt := UF.W_step_lt hInv hx hp hpx
        have hWx := hWf hx
        have hWp1 := UF.W_pos hpd
        obtain ⟨iha, ihb, ihc, ihd, ihe, ihf, ihg⟩ :=
          ih p (by omega) (fun _ => by omega)
        have hfxp : s.find x = s.find p := UF.find_parent hInv hp hpx
        have hx' : x ∈ (UF.findM n s p).2.dom := by
          rw [ihc]
          exact Finset.mem_insert_of_mem hx
        have hvx : (UF.findM n s p).1 = (UF.findM n s p).2.find x := by
          rw [iha, ihe x, hfxp]
        refine ⟨?_, ?_, ?_, ?_, ?_, ?_, ?_⟩
        · rw [h1, iha, hfxp]
        · rw [h2, hvx]
          exact UF.repoint_inv ihb hx'
        · rw [h2]
          show (UF.findM n s p).2.dom = insert x s.dom
          rw [ihc, Finset.insert_eq_self.mpr hpd,
            Finset.insert_eq_self.mpr hx]
        · rw [h2]
          show (UF.findM n s p).2.rank = s.rank
          exact ihd
        · intro z
          rw [h2, hvx]
          exact (UF.repoint_find ihb hx' z).trans (ihe z)
        · rw [h2, hvx]
          have hsx : (UF.findM n s p).2.find x = s.find x := ihe x
          rw [← hsx]
          exact UF.repoint_parent_root ihb hx'
        · intro z hz
          have hzd : z ∈ s.dom := (hInv.mem_iff z).mpr (by rw [hz]; rfl)
          have hzx : z ≠ x := by
            intro h
            rw [h, hp] at hz
            exact hpx (Option.some.inj hz)
          rw [h2]
          show updP (UF.findM n s p).2.parent x (UF.findM n s p).1 z = some z
          simp only [updP, if_neg hzx]
          exact ihg z hz

/-- The link phase of `unite`, after both roots are known: union by rank. -/
def UF.link (t : UF) (rx ry : ℤ) : UF :=
  if rx = ry then t
  else if t.rank rx < t.rank ry then ⟨updP t.parent rx ry, t.rank, t.dom⟩
  else if t.rank ry < t.rank rx then ⟨updP t.parent ry rx, t.rank, t.dom⟩
  else ⟨updP t.parent ry rx, updR t.rank rx (t.rank rx + 1), t.dom⟩

theorem UF.unite_eq_link (s : UF) (x y : ℤ) :
    s.unite x y = UF.link ((s.findRootM x).2.findRootM y).2 (s.findRootM x).1
      ((s.findRootM x).2.findRootM y).1 := rfl

theorem UF.findRootM_spec {s : UF} (hInv : s.Inv) (x : ℤ) :
    (s.findRootM x).1 = s.find x ∧
    (s.findRootM x).2.Inv ∧
    (s.findRootM x).2.dom = insert x s.dom ∧
    (s.findRootM x).2.rank = s.rank ∧
    (∀ z, (s.findRootM x).2.find z = s.find z) ∧
    (s.findRootM x).2.parent (s.find x) = some (s.find x) ∧
    (∀ z, s.parent z = some z → (s.findRootM x).2.parent z = some z) :=
  UF.findM_spec hInv (s.dom.card + 1) x (by omega)
    (fun _ => le_trans (UF.W_le_card s x) (by omega))

theorem UF.link_inv {t : UF} (hInv : t.Inv) {l w : ℤ} (rk : ℤ → ℕ)
    (hl : t.parent l = some l) (hw : t.parent w = some w)
    (hrk_edge : rk l < rk w)
    (hrk_other : ∀ z p, t.parent z = some p → p ≠ z → rk z < rk p)
    (hrk_zero : ∀ z, z ∉ t.dom → rk z = 0) :
    UF.Inv ⟨updP t.parent l w, rk, t.dom⟩ := by
  have hld : l ∈ t.dom := (hInv.mem_iff l).mpr (by rw [hl]; rfl)
  have hwd : w ∈ t.dom := (hInv.mem_iff w).mpr (by rw [hw]; rfl)
  refine ⟨?_, ?_, ?_, hrk_zero⟩
  · intro z
    by_cases hz : z = l
    · subst hz
      simp only [updP, eq_self_iff_true, if_true, Option.isSome_some]
      exact iff_of_true hld trivial
    · simp only [updP, if_neg hz]
      exact hInv.mem_iff z
  · intro z p hzp
    by_cases hz : z = l
    · subst hz
      simp only [updP, eq_self_iff_true, if_true, Option.some.injEq] at hzp
      rw [← hzp]
      exact hwd
    · simp only [updP, if_neg hz] at hzp
      exact hInv.closed z p hzp
  · intro z p hzp hne
    by_cases hz : z = l
    · subst hz
      simp only [updP, eq_self_iff_true, if_true, Option.some.injEq] at hzp
      rw [← hzp]
      exact hrk_edge
    · simp only [updP, if_neg hz] at hzp
      exact hrk_other z p hzp hne

theorem UF.link_find {t : UF} (hInv : t.Inv) {l w : ℤ} (rk : ℤ → ℕ)
    (hl : t.parent l = some l) (hw : t.parent w = some w) (hlw : w ≠ l)
    (hInv2 : UF.Inv ⟨updP t.parent l w, rk, t.dom⟩) (z : ℤ) :
    UF.find ⟨updP t.parent l w, rk, t.dom⟩ z =
      if t.find z = l then w else t.find z := by
  have hmain : ∀ n u, u ∈ t.dom → t.W u ≤ n →
      UF.find ⟨updP t.parent l w, rk, t.dom⟩ u =
        if t.find u = l then w else t.find u := by
    intro n
    induction n with
    | zero =>
      intro u hu hW
      exact absurd hW (by have := UF.W_pos hu; omega)
    | succ n ih =>
      intro u hu hW
      obtain ⟨p, hp⟩ := Option.isSome_iff_exists.mp ((hInv.mem_iff u).mp hu)
      by_cases hul : u = l
      · subst hul
        have hfu : t.find u = u := UF.find_fix hl
        rw [hfu, if_pos rfl]
        have htp : (⟨updP t.parent u w, rk, t.dom⟩ : UF).parent u = some w := by
          show updP t.parent u w u = some w
          simp only [updP, eq_self_iff_true, if_true]
        rw [UF.find_parent hInv2 htp hlw]
        have htw : (⟨updP t.parent u w, rk, t.dom⟩ : UF).parent w = some w := by
          show updP t.parent u w w = some w
          simp only [updP, if_neg hlw]
          exact hw
        exact UF.find_fix htw
      · have htp : (⟨updP t.parent l w, rk, t.dom⟩ : UF).parent u = some p := by
          show updP t.parent l w u = some p
          simp only [updP, if_neg hul]
          exact hp
        by_cases hpu : p = u
        · rw [hpu] at htp hp
          rw [UF.find_fix htp, UF.find_fix hp, if_neg hul]
        · rw [UF.find_parent hInv2 htp hpu, UF.find_parent hInv hp hpu]
          have hpd : p ∈ t.dom := hInv.closed u p hp
          have hWp := UF.W_step_lt hInv hu hp hpu
          exact ih p hpd (by omega)
  by_cases hz : z ∈ t.dom
  · exact hmain (t.W z) z hz (le_refl _)
  · have hzl : z ≠ l := by
      intro h
      exact hz (h ▸ (hInv.mem_iff l).mpr (by rw [hl]; rfl))
    rw [UF.find_not_mem hInv2 hz, UF.find_not_mem hInv hz, if_neg hzl]

theorem UF.link_spec {t : UF} (hInv : t.Inv) {rx ry : ℤ}
    (hrx : t.parent rx = some rx) (hry : t.parent ry = some ry) :
    (t.link rx ry).Inv ∧ (t.link rx ry).dom = t.dom ∧
    ∃ w, (w = rx ∨ w = ry) ∧
      ∀ z, (t.link rx ry).find z =
        if t.find z = rx ∨ t.find z = ry then w else t.find z := by
  by_cases hxy : rx = ry
  · have hval : t.link rx ry = t := by
      simp only [UF.link, if_pos hxy]
    rw [hval]
    refine ⟨hInv, rfl, rx, Or.inl rfl, ?_⟩
    intro z
    by_cases hc : t.find z = rx ∨ t.find z = ry
    · rw [if_pos hc]
      rcases hc with h | h
      · exact h
      · rw [h, hxy]
    · rw [if_neg hc]
  · have hfrx : t.find rx = rx := UF.find_fix hrx
    have hfry : t.find ry = ry := UF.find_fix hry
    rcases lt_trichotomy (t.rank rx) (t.rank ry) with hlt | heq | hgt
    · have hval : t.link rx ry = ⟨updP t.parent rx ry, t.rank, t.dom⟩ := by
        simp only [UF.link, if_neg hxy, if_pos hlt]
      have hInv2 : UF.Inv ⟨updP t.parent rx ry, t.rank, t.dom⟩ :=
        UF.link_inv hInv t.rank hrx hry hlt hInv.ranklt hInv.rank_zero
      have hfind := UF.link_find hInv t.rank hrx hry
        (fun h => hxy h.symm) hInv2
      rw [hval]
      refine ⟨hInv2, rfl, ry, Or.inr rfl, ?_⟩
      intro z
      rw [hfind z]
      by_cases h1 : t.find z = rx
      · rw [if_pos h1, if_pos (Or.inl h1)]
      · rw [if_neg h1]
        by_cases h2 : t.find z = ry
        · rw [if_pos (Or.inr h2), h2]
        · rw [if_neg (by tauto)]
    · have hnlt1 : ¬ t.rank rx < t.rank ry := by omega
      have hnlt2 : ¬ t.rank ry < t.rank rx := by omega
      have hval : t.link rx ry =
          ⟨updP t.parent ry rx, updR t.rank rx (t.rank rx + 1), t.dom⟩ := by
        simp only [UF.link, if_neg hxy, if_neg hnlt1, if_neg hnlt2]
      have hrxd : rx ∈ t.dom := (hInv.mem_iff rx).mpr (by rw [hrx]; rfl)
      have hyx : ry ≠ rx := fun h => hxy h.symm
      have hrk_edge : updR t.rank rx (t.rank rx + 1) ry <
          updR t.rank rx (t.rank rx + 1) rx := by
        simp only [updR, if_neg hyx, eq_self_iff_true, if_true]
        omega
      have hrk_other : ∀ z p, t.parent z = some p → p ≠ z →
          updR t.rank rx (t.rank rx + 1) z < updR t.rank rx (t.rank rx + 1) p := by
        intro z p hzp hne
        by_cases hzx : z = rx
        · rw [hzx, hrx] at hzp
          exact absurd (Option.some.inj hzp).symm (hzx ▸ hne)
        · have hbase := hInv.ranklt z p hzp hne
          simp only [updR, if_neg hzx]
          by_cases hpx : p = rx
          · rw [if_pos hpx]
            rw [hpx] at hbase
            omega
          · rw [if_neg hpx]
            exact hbase
      have hrk_zero : ∀ z, z ∉ t.dom → updR t.rank rx (t.rank rx + 1) z = 0 := by
        intro z hz
        have hzx : z ≠ rx := fun h => hz (h ▸ hrxd)
        simp only [updR, if_neg hzx]
        exact hInv.rank_zero z hz
      have hInv2 : UF.Inv ⟨updP t.parent ry rx,
          updR t.rank rx (t.rank rx + 1), t.dom⟩ :=
        UF.link_inv hInv _ hry hrx hrk_edge hrk_other hrk_zero
      have hfind := UF.link_find hInv _ hry hrx hxy hInv2
      rw [hval]
      refine ⟨hInv2, rfl, rx, Or.inl rfl, ?_⟩
      intro z
      rw [hfind z]
      by_cases h2 : t.find z = ry
      · rw [if_pos h2, if_pos (Or.inr h2)]
      · rw [if_neg h2]
        by_cases h1 : t.find z = rx
        · rw [if_pos (Or.inl h1), h1]
        · rw [if_neg (by tauto)]
    · have hnlt1 : ¬ t.rank rx < t.rank ry := by omega
      have hval : t.link rx ry = ⟨updP t.parent ry rx, t.rank, t.dom⟩ := by
        simp only [UF.link, if_neg hxy, if_neg hnlt1, if_pos hgt]
      have hInv2 : UF.Inv ⟨updP t.parent ry rx, t.rank, t.dom⟩ :=
        UF.link_inv hInv t.rank hry hrx hgt hInv.ranklt hInv.rank_zero
      have hfind := UF.link_find hInv t.rank hry hrx hxy hInv2
      rw [hval]
      refine ⟨hInv2, rfl, rx, Or.inl rfl, ?_⟩
      intro z
      rw [hfind z]
      by_cases h2 : t.find z = ry
      · rw [if_pos h2, if_pos (Or.inr h2)]
      · rw [if_neg h2]
        by_cases h1 : t.find z = rx
        · rw [if_pos (Or.inl h1), h1]
        · rw [if_neg (by tauto)]

theorem UF.unite_spec {s : UF} (hInv : s.Inv) (x y : ℤ) :
    (s.unite x y).Inv ∧
    (s.unite x y).dom = insert y (insert x s.dom) ∧
    ∃ w, (w = s.find x ∨ w = s.find y) ∧
      ∀ z, (s.unite x y).find z =
        if s.find z = s.find x ∨ s.find z = s.find y then w else s.find z := by
  obtain ⟨f1a, f1b, f1c, f1d, f1e, f1f, f1g⟩ := UF.findRootM_spec hInv x
  obtain ⟨f2a, f2b, f2c, f2d, f2e, f2f, f2g⟩ := UF.findRootM_spec f1b y
  have hfind2 : ∀ z, ((s.findRootM x).2.findRootM y).2.find z = s.find z :=
    fun z => (f2e z).trans (f1e z)
  have hrootx : ((s.findRootM x).2.findRootM y).2.parent (s.find x) =
      some (s.find x) := f2g _ f1f
  have hrooty : ((s.findRootM x).2.findRootM y).2.parent (s.find y) =
      some (s.find y) := by
    have h := f2f
    rwa [f1e y] at h
  rw [UF.unite_eq_link s x y, f1a, f2a, f1e y]
  obtain ⟨hI, hD, w, hw, hF⟩ := UF.link_spec f2b hrootx hrooty
  refine ⟨hI, ?_, w, hw, ?_⟩
  · rw [hD, f2c, f1c]
  · intro z
    rw [hF z, hfind2 z]

/-- The undirected edge relation of a list of united pairs. -/
def edgeRel (E : List (ℤ × ℤ)) (a b : ℤ) : Prop :=
  (a, b) ∈ E ∨ (b, a) ∈ E

/-- Connectivity in the undirected graph whose edges are the united pairs:
the equivalence closure of the edge relation. -/
def Conn (E : List (ℤ × ℤ)) : ℤ → ℤ → Prop := Relation.EqvGen (edgeRel E)

/-- An id appears in some united pair. -/
def touched (E : List (ℤ × ℤ)) (z : ℤ) : Prop :=
  ∃ p ∈ E, p.1 = z ∨ p.2 = z

/-- Applying a sequence of `unite` calls to the initially empty structure. -/
def UF.runPairs (pairs : List (ℤ × ℤ)) : UF :=
  pairs.foldl (fun s p => s.unite p.1 p.2) UF.empty

theorem eqvGen_eq_of_no_rel {r : ℤ → ℤ → Prop} (hr : ∀ a b, ¬ r a b)
    {a b : ℤ} (h : Relation.EqvGen r a b) : a = b := by
  induction h with
  | rel u v huv => exact absurd huv (hr u v)
  | refl u => rfl
  | symm u v _ ih => exact ih.symm
  | trans u v w _ _ ih1 ih2 => exact ih1.trans ih2

theorem conn_nil {a b : ℤ} : Conn [] a b ↔ a = b := by
  constructor
  · intro h
    refine eqvGen_eq_of_no_rel ?_ h
    intro u v huv
    rcases huv with h' | h' <;> simp at h'
  · rintro rfl
    exact Relation.EqvGen.refl a

theorem conn_mono {E F : List (ℤ × ℤ)} (hEF : ∀ p, p ∈ E → p ∈ F)
    {a b : ℤ} (h : Conn E a b) : Conn F a b := by
  refine Relation.EqvGen.mono ?_ h
  intro u v huv
  exact huv.imp (hEF _) (hEF _)

theorem conn_append {E : List (ℤ × ℤ)} {x y a b : ℤ} :
    Conn (E ++ [(x, y)]) a b ↔
      Conn E a b ∨
        ((Conn E a x ∨ Conn E a y) ∧ (Conn E b x ∨ Conn E b y)) := by
  constructor
  · intro h
    have h' : Relation.EqvGen (edgeRel (E ++ [(x, y)])) a b := h
    clear h
    induction h' with
    | rel u v huv =>
      rcases huv with hm | hm
      · rw [List.mem_append] at hm
        rcases hm with hm | hm
        · exact Or.inl (Relation.EqvGen.rel u v (Or.inl hm))
        · simp only [List.mem_singleton, Prod.mk.injEq] at hm
          obtain ⟨rfl, rfl⟩ := hm
          exact Or.inr ⟨Or.inl (Relation.EqvGen.refl u),
            Or.inr (Relation.EqvGen.refl v)⟩
      · rw [List.mem_append] at hm
        rcases hm with hm | hm
        · exact Or.inl (Relation.EqvGen.rel u v (Or.inr hm))
        · simp only [List.mem_singleton, Prod.mk.injEq] at hm
          obtain ⟨rfl, rfl⟩ := hm
          exact Or.inr ⟨Or.inr (Relation.EqvGen.refl u),
            Or.inl (Relation.EqvGen.refl v)⟩
    | refl u => exact Or.inl (Relation.EqvGen.refl u)
    | symm u v _ ih =>
      rcases ih with hc | ⟨h1, h2⟩
      · exact Or.inl (Relation.EqvGen.symm u v hc)
      · exact Or.inr ⟨h2, h1⟩
    | trans u v w _ _ ih1 ih2 =>
      rcases ih1 with c1 | ⟨a1, v1⟩
      · rcases ih2 with c2 | ⟨v2, b2⟩
        · exact Or.inl (Relation.EqvGen.trans u v w c1 c2)
        · exact Or.inr
            ⟨v2.imp (Relation.EqvGen.trans u v x c1)
              (Relation.EqvGen.trans u v y c1), b2⟩
      · rcases ih2 with c2 | ⟨v2, b2⟩
        · refine Or.inr ⟨a1, ?_⟩
          have hvw := Relation.EqvGen.symm v w c2
          exact v1.imp (Relation.EqvGen.trans w v x hvw)
            (Relation.EqvGen.trans w v y hvw)
        · exact Or.inr ⟨a1, b2⟩
  · intro h
    have hlift : ∀ {u v : ℤ}, Conn E u v → Conn (E ++ [(x, y)]) u v :=
      fun h' => conn_mono (fun p hp => List.mem_append_left _ hp) h'
    rcases h with hc | ⟨ha, hb⟩
    · exact hlift hc
    · have hxy : Conn (E ++ [(x, y)]) x y :=
        Relation.EqvGen.rel x y (Or.inl (List.mem_append_right _ (by simp)))
      have hax : Conn (E ++ [(x, y)]) a x := by
        rcases ha with h' | h'
        · exact hlift h'
        · exact Relation.EqvGen.trans a y x (hlift h')
            (Relation.EqvGen.symm x y hxy)
      have hbx : Conn (E ++ [(x, y)]) b x := by
        rcases hb with h' | h'
        · exact hlift h'
        · exact Relation.EqvGen.trans b y x (hlift h')
            (Relation.EqvGen.symm x y hxy)
      exact Relation.EqvGen.trans a x b hax (Relation.EqvGen.symm b x hbx)

/-- The simulation invariant between a union-find state and the list of
united pairs so far: the state is well formed, its key set is exactly the
touched ids, and root equality coincides with graph connectivity. -/
structure Sim (s : UF) (E : List (ℤ × ℤ)) : Prop where
  inv : s.Inv
  dom_iff : ∀ z, z ∈ s.dom ↔ touched E z
  find_iff : ∀ a b, s.find a = s.find b ↔ Conn E a b

theorem sim_empty : Sim UF.empty [] := by
  have hinv : UF.empty.Inv := by
    refine ⟨?_, ?_, ?_, ?_⟩
    · intro z
      exact iff_of_false (Finset.not_mem_empty z) (by simp [UF.empty])
    · intro z p h
      exact absurd h (by simp [UF.empty])
    · intro z p h
      exact absurd h (by simp [UF.empty])
    · intro z _
      rfl
  refine ⟨hinv, ?_, ?_⟩
  · intro z
    refine iff_of_false (Finset.not_mem_empty z) ?_
    rintro ⟨p, hp, _⟩
    simp at hp
  · intro a b
    rw [UF.find_not_mem hinv (Finset.not_mem_empty a),
      UF.find_not_mem hinv (Finset.not_mem_empty b)]
    exact conn_nil.symm

theorem sim_step {s : UF} {E : List (ℤ × ℤ)} (h : Sim s E) (x y : ℤ) :
    Sim (s.unite x y) (E ++ [(x, y)]) := by
  obtain ⟨hI, hD, w, hw, hF⟩ := UF.unite_spec h.inv x y
  refine ⟨hI, ?_, ?_⟩
  · intro z
    rw [hD]
    simp only [Finset.mem_insert]
    constructor
    · rintro (rfl | rfl | hz)
      · exact ⟨(x, z), List.mem_append_right _ (by simp), Or.inr rfl⟩
      · exact ⟨(z, y), List.mem_append_right _ (by simp), Or.inl rfl⟩
      · obtain ⟨p, hp, ho⟩ := (h.dom_iff z).mp hz
        exact ⟨p, List.mem_append_left _ hp, ho⟩
    · rintro ⟨p, hp, ho⟩
      rw [List.mem_append] at hp
      rcases hp with hp | hp
      · exact Or.inr (Or.inr ((h.dom_iff z).mpr ⟨p, hp, ho⟩))
      · simp only [List.mem_singleton] at hp
        subst hp
        rcases ho with ho | ho
        · exact Or.inr (Or.inl ho.symm)
        · exact Or.inl ho.symm
  · intro a b
    rw [hF a, hF b, conn_append, ← h.find_iff a b, ← h.find_iff a x,
      ← h.find_iff a y, ← h.find_iff b x, ← h.find_iff b y]
    by_cases hCa : s.find a = s.find x ∨ s.find a = s.find y
    · rw [if_pos hCa]
      by_cases hCb : s.find b = s.find x ∨ s.find b = s.find y
      · rw [if_pos hCb]
        exact iff_of_true rfl (Or.inr ⟨hCa, hCb⟩)
      · rw [if_neg hCb]
        refine iff_of_false ?_ ?_
        · intro hwb
          apply hCb
          rcases hw with hw | hw
          · rw [hw] at hwb
            exact Or.inl hwb.symm
          · rw [hw] at hwb
            exact Or.inr hwb.symm
        · rintro (hab | ⟨_, h2⟩)
          · rw [hab] at hCa
            exact hCb hCa
          · exact hCb h2
    · rw [if_neg hCa]
      by_cases hCb : s.find b = s.find x ∨ s.find b = s.find y
      · rw [if_pos hCb]
        refine iff_of_false ?_ ?_
        · intro hwb
          apply hCa
          rcases hw with hw | hw
          · rw [hw] at hwb
            exact Or.inl hwb
          · rw [hw] at hwb
            exact Or.inr hwb
        · rintro (hab | ⟨h1, _⟩)
          · rw [← hab] at hCb
            exact hCa hCb
          · exact hCa h1
      · rw [if_neg hCb]
        constructor
        · exact Or.inl
        · rintro (hab | ⟨h1, _⟩)
          · exact hab
          · exact absurd h1 hCa

theorem sim_fold : ∀ (pairs : List (ℤ × ℤ)) (s : UF) (E : List (ℤ × ℤ)),
    Sim s E →
      Sim (List.foldl (fun t p => t.unite p.1 p.2) s pairs) (E ++ pairs) := by
  intro pairs
  induction pairs with
  | nil =>
    intro s E h
    rw [List.append_nil]
    exact h
  | cons p ps ih =>
    intro s E h
    rw [List.foldl_cons]
    have h2 := ih (s.unite p.1 p.2) (E ++ [(p.1, p.2)]) (sim_step h p.1 p.2)
    have he : (E ++ [(p.1, p.2)]) ++ ps = E ++ p :: ps := by
      rw [List.append_assoc]
      simp
    rwa [he] at h2

/-- C9: applying any finite sequence of `unite(x, y)` calls to an initially
empty `UnionFind`, two ids have equal `find` roots iff they are connected in
the undirected graph whose edges are the united pairs, and an id that never
appeared in any `unite` call is its own root — so the roots partition the
touched ids into exactly the connected components. -/
theorem claim_C9 (pairs : List (ℤ × ℤ)) :
    (∀ a b, (UF.runPairs pairs).find a = (UF.runPairs pairs).find b ↔
      Conn pairs a b) ∧
    (∀ z, ¬ touched pairs z → (UF.runPairs pairs).find z = z) := by
  have hsim : Sim (UF.runPairs pairs) ([] ++ pairs) :=
    sim_fold pairs UF.empty [] sim_empty
  rw [List.nil_append] at hsim
  refine ⟨hsim.find_iff, ?_⟩
  intro z hz
  have hnd : z ∉ (UF.runPairs pairs).dom := fun hmem => hz ((hsim.dom_iff z).mp hmem)
  exact UF.find_not_mem hsim.inv hnd

/-- Witness for C9 at the concrete sequence `unite 1 2; unite 2 3`: ids 1 and
3 share a root, and the untouched id 5 is its own root. -/
theorem claim_C9_witness :
    (UF.runPairs [(1, 2), (2, 3)]).find 1 = (UF.runPairs [(1, 2), (2, 3)]).find 3 ∧
    (UF.runPairs [(1, 2), (2, 3)]).find 5 = 5 := by
  constructor
  · refine ((claim_C9 [(1, 2), (2, 3)]).1 1 3).mpr ?_
    refine Relation.EqvGen.trans 1 2 3 ?_ ?_
    · exact Relation.EqvGen.rel 1 2 (Or.inl (by simp))
    · exact Relation.EqvGen.rel 2 3 (Or.inl (by simp))
  · refine (claim_C9 [(1, 2), (2, 3)]).2 5 ?_
    rintro ⟨p, hp, ho⟩
    simp only [List.mem_cons, List.not_mem_nil, or_false] at hp
    rcases hp with rfl | rfl <;> rcases ho with ho | ho <;> simp at ho

end RoutingGame
